import Mathlib

/-!
# Verification of the LTLf2DFA formula core

A shallow embedding of the formula model, the NNF/negation engine, the two
MONA encoders, the sharing clausifier and the program assemblers of the
`ltlf2dfa` package (`base.py`, `ltlf.py`), together with proofs settling the
specification claims about them.

Python dynamic behaviour is made explicit:
* methods that can raise return `Except PyErr _` (`NameError`,
  `AttributeError`, ... are constructors of `PyErr`);
* the Python value `None` flowing where a formula is expected is the
  constructor `LTLf.pynone`, and a raw Python list in formula position
  (produced by `LTLfSince.negate` via `LTLfNot([...])`) is `LTLf.pylist`;
* a method returning `None` instead of a string is modelled by the codomain
  `Option String` inside `Except` (`str.format` renders `none` as "None",
  `str.join` raises `TypeError` on it);
* unbounded recursion (Python `RecursionError`) is modelled by fuel.
-/

/-- The exceptions the embedded code can raise. -/
inductive PyErr where
  | nameError
  | attributeError
  | typeError
  | valueError
  | assertError
  | indexError
  | recursionError
  deriving DecidableEq, Repr

mutual
/-- Abstract syntax of LTLf formulas, following the class hierarchy of
`ltlf.py`.  `atom` is `LTLfAtomic`, `patom` is the propositional atom
`PLAtomic` used for the clausifier's fresh variables (a distinct class,
hence a distinct constructor: `Hashable.__eq__` compares types).
`pynone`/`pylist` stand for the Python values `None` and a raw list
appearing in formula position. -/
inductive LTLf where
  | atom (s : String)
  | patom (s : String)
  | tt
  | ff
  | lnot (f : LTLf)
  | land (fs : LTLfList)
  | lor (fs : LTLfList)
  | limp (fs : LTLfList)
  | liff (fs : LTLfList)
  | lnext (f : LTLf)
  | wnext (f : LTLf)
  | luntil (fs : LTLfList)
  | lrel (fs : LTLfList)
  | ev (f : LTLf)
  | alw (f : LTLf)
  | llast
  | lend
  | before (f : LTLf)
  | wbefore (f : LTLf)
  | since (fs : LTLfList)
  | trigger (fs : LTLfList)
  | once (f : LTLf)
  | hist (f : LTLf)
  | init
  | pynone
  | pylist (fs : LTLfList)
  deriving DecidableEq, Repr

/-- Ordered children of an n-ary operator (`BinaryOperator.formulas`). -/
inductive LTLfList where
  | nil
  | cons (hd : LTLf) (tl : LTLfList)
  deriving DecidableEq, Repr
end

namespace LTLfList

/-- Number of children. -/
def lenL : LTLfList → Nat
  | .nil => 0
  | .cons _ tl => 1 + lenL tl

/-- The two-element child list `[a, b]`. -/
def two (a b : LTLf) : LTLfList := .cons a (.cons b .nil)

/-- `k` copies of the same child, for stating the sharing bound. -/
def replicateL : Nat → LTLf → LTLfList
  | 0, _ => .nil
  | n + 1, f => .cons f (replicateL n f)

end LTLfList

open LTLfList (lenL two replicateL)

/-- `isinstance(f, AtomicFormula)`: atoms, the `PLAtomic` fresh variables and
the boolean constants (`LTLfTrue`/`LTLfFalse` derive from `LTLfAtomic`). -/
def isAtomicF : LTLf → Bool
  | .atom _ | .patom _ | .tt | .ff => true
  | _ => false

/-- `str.format` interpolation of a value that may be Python `None`. -/
def fmtPy : Option String → String
  | some s => s
  | none => "None"

/-- `sep.join(items)`: raises `TypeError` when an item is `None`. -/
def joinMona (sep : String) (items : List (Option String)) : Except PyErr String :=
  if items.all Option.isSome then
    .ok (String.intercalate sep (items.map fmtPy))
  else
    .error .typeError

/-- `str.upper()` (ASCII data; equal to `String.toUpper`, but defined by
structural recursion so that proofs can evaluate it). -/
def upperStr (s : String) : String := ⟨s.data.map Char.toUpper⟩

/-- Decimal digits to a number. -/
def digitsToNat (ds : List Char) : Nat :=
  ds.foldl (fun acc c => acc * 10 + (c.toNat - 48)) 0

/-- Modelled from the spec: `helpers.new_var` is not under `src/`; §4.3 asks
for a deterministic generator deriving the next bound first-order variable
name from the current position reference, starting from the initial position
or the last-position term: `0`/`max($)` step to `v_1`, and `v_k` steps to
`v_(k+1)`. -/
def newVar (v : String) : String :=
  if v = "0" ∨ v = "max($)" then "v_1"
  else
    match v.data with
    | 'v' :: '_' :: ds => "v_" ++ toString (digitsToNat ds + 1)
    | _ => v

mutual

/-- `to_mona`: the direct MONA encoding of `ltlf.py`, position argument `v`.
`.ok none` is a method that returned Python `None` (`LTLfEnd` has no
`to_mona`).  The `hist` case at a non-initial position raises `NameError`:
`LTLfHistorically.to_mona` interpolates the undefined name `ex_var`. -/
def toMona : LTLf → String → Except PyErr (Option String)
  | .atom s, v =>
    if v ≠ "0" then .ok (some ("(" ++ v ++ " in " ++ upperStr s ++ ")"))
    else .ok (some ("(0 in " ++ upperStr s ++ ")"))
  | .patom s, v =>
    -- Modelled from the spec: `pl.py` is not under `src/`; a propositional
    -- atom is encoded like a named proposition (§4.3, atomic case).
    if v ≠ "0" then .ok (some ("(" ++ v ++ " in " ++ upperStr s ++ ")"))
    else .ok (some ("(0 in " ++ upperStr s ++ ")"))
  | .tt, _ => .ok (some "true")
  | .ff, _ => .ok (some "false")
  | .lnot f, v => do
    let r ← toMona f v
    .ok (some ("~(" ++ fmtPy r ++ ")"))
  | .land fs, v => do
    let rs ← toMonaList fs v
    let j ← joinMona " & " rs
    .ok (some ("(" ++ j ++ ")"))
  | .lor fs, v => do
    let rs ← toMonaList fs v
    let j ← joinMona " | " rs
    .ok (some ("(" ++ j ++ ")"))
  | .limp fs, v =>
    match fs with
    | .cons a (.cons b _) => do
      let ra ← toMona a v
      let rb ← toMona b v
      .ok (some ("(" ++ fmtPy ra ++ " => " ++ fmtPy rb ++ ")"))
    | _ => .error .valueError
  | .liff fs, v =>
    match fs with
    | .cons a (.cons b _) => do
      let ra ← toMona a v
      let rb ← toMona b v
      .ok (some ("(" ++ fmtPy ra ++ " <=> " ++ fmtPy rb ++ ")"))
    | _ => .error .valueError
  | .lnext f, v =>
    let ex := newVar v
    if v ≠ "0" then do
      let r ← toMona f ex
      .ok (some ("(ex1 " ++ ex ++ ": " ++ ex ++ "=" ++ v ++ "+1 & " ++ fmtPy r ++ ")"))
    else do
      let r ← toMona f ex
      .ok (some ("(ex1 " ++ ex ++ ": " ++ ex ++ "=1 & " ++ fmtPy r ++ ")"))
  | .wnext f, v =>
    let ex := newVar v
    if v ≠ "0" then do
      let r ← toMona f ex
      .ok (some ("((" ++ v ++ " = max($)) | (ex1 " ++ ex ++ ": " ++ ex ++ "=" ++ v ++
        "+1 & " ++ fmtPy r ++ "))"))
    else do
      let r ← toMona f ex
      .ok (some ("((0 = max($)) | (ex1 " ++ ex ++ ": " ++ ex ++ "=1 & " ++ fmtPy r ++ "))"))
  | .luntil fs, v =>
    let ex := newVar v
    let al := newVar ex
    match fs with
    | .nil => .error .indexError
    | .cons a .nil => do
      let _ ← toMona a al
      .error .indexError
    | .cons a (.cons b _) => do
      let f1 ← toMona a al
      let f2 ← toMona b ex
      .ok (some ("(ex1 " ++ ex ++ ": " ++ v ++ "<=" ++ ex ++ "&" ++ ex ++ "<=max($) & " ++
        fmtPy f2 ++ " & (all1 " ++ al ++ ": " ++ v ++ "<=" ++ al ++ "&" ++ al ++ "<" ++
        ex ++ " => " ++ fmtPy f1 ++ "))"))
  | .lrel fs, v =>
    let al := newVar v
    let ex := newVar al
    match fs with
    | .nil => .error .indexError
    | .cons a .nil => do
      let _ ← toMona a ex
      .error .indexError
    | .cons a (.cons b _) => do
      let f1 ← toMona a ex
      let f2 ← toMona b al
      .ok (some ("(all1 " ++ al ++ ": (" ++ v ++ "<=" ++ al ++ "&" ++ al ++
        "<=max($)) => ((" ++ fmtPy f2 ++ ") | (ex1 " ++ ex ++ ": " ++ v ++ " <= " ++ ex ++
        " & " ++ ex ++ " < " ++ al ++ " & " ++ fmtPy f1 ++ ")))"))
  | .ev f, v => do
    let ex := newVar v
    let r ← toMona f ex
    .ok (some ("(ex1 " ++ ex ++ ": " ++ v ++ "<=" ++ ex ++ "&" ++ ex ++ "<=max($) & " ++
      fmtPy r ++ ")"))
  | .alw f, v => do
    let al := newVar v
    let r ← toMona f al
    .ok (some ("(all1 " ++ al ++ ": " ++ v ++ "<=" ++ al ++ "&" ++ al ++ "<=max($) => " ++
      fmtPy r ++ ")"))
  | .llast, v =>
    if v = "0" then .ok (some "(0 = max($))")
    else .ok (some ("(" ++ v ++ " = max($))"))
  | .lend, _ => .ok none
  | .before f, v =>
    let ex := newVar v
    if v = "0" then .ok (some "(false)")
    else if v = "max($)" then do
      let r ← toMona f ex
      .ok (some ("(ex1 " ++ ex ++ ": " ++ ex ++ "=max($)-1 & max($)>0 & " ++ fmtPy r ++ ")"))
    else do
      let r ← toMona f ex
      .ok (some ("(ex1 " ++ ex ++ ": " ++ ex ++ "=" ++ v ++ "-1 & " ++ ex ++ ">=0 & " ++
        fmtPy r ++ ")"))
  | .wbefore f, v =>
    let ex := newVar v
    if v = "0" then .ok (some "(true)")
    else if v = "max($)" then do
      let r ← toMona f ex
      .ok (some ("((max($) = 0) | (ex1 " ++ ex ++ ": " ++ ex ++ "=max($)-1 & max($)>0 & " ++
        fmtPy r ++ "))"))
    else do
      let r ← toMona f ex
      .ok (some ("((" ++ v ++ " = 0) | (ex1 " ++ ex ++ ": " ++ ex ++ "=" ++ v ++ "-1 & " ++
        ex ++ ">=0 & " ++ fmtPy r ++ "))"))
  | .since fs, v =>
    if v ≠ "0" then
      let ex := newVar v
      let al := newVar ex
      match fs with
      | .nil => .error .indexError
      | .cons a .nil => do
        let _ ← toMona a al
        .error .indexError
      | .cons a (.cons b _) => do
        let f1 ← toMona a al
        let f2 ← toMona b ex
        .ok (some ("(ex1 " ++ ex ++ ": 0<=" ++ ex ++ "&" ++ ex ++ "<=" ++ v ++ " & " ++
          fmtPy f2 ++ " & (all1 " ++ al ++ ": (" ++ ex ++ "<" ++ al ++ "&" ++ al ++ "<=" ++
          v ++ ") => " ++ fmtPy f1 ++ "))"))
    else
      match fs with
      | .cons _ (.cons b _) => toMona b v
      | _ => .error .indexError
  | .trigger fs, v =>
    if v ≠ "0" then
      let al := newVar v
      let ex := newVar al
      match fs with
      | .nil => .error .indexError
      | .cons a .nil => do
        let _ ← toMona a al
        .error .indexError
      | .cons a (.cons b _) => do
        let f1 ← toMona a al
        let f2 ← toMona b ex
        .ok (some ("(all1 " ++ ex ++ ": 0<=" ++ ex ++ "&" ++ ex ++ "<=" ++ v ++ " => (" ++
          fmtPy f2 ++ " | (ex1 " ++ al ++ ": (" ++ ex ++ "<" ++ al ++ "&" ++ al ++ "<=" ++
          v ++ ") &  " ++ fmtPy f1 ++ ")))"))
    else
      match fs with
      | .cons _ (.cons b _) => toMona b v
      | _ => .error .indexError
  | .once f, v =>
    if v ≠ "0" then do
      let ex := newVar v
      let r ← toMona f ex
      .ok (some ("(ex1 " ++ ex ++ ": 0<=" ++ ex ++ "&" ++ ex ++ "<=" ++ v ++ " & " ++
        fmtPy r ++ ")"))
    else toMona f "0"
  | .hist f, v =>
    -- `all_var = new_var(v)` is computed, but the non-initial branch formats
    -- with the name `ex_var`, which is unbound in this method: `NameError`.
    let _ := newVar v
    if v ≠ "0" then .error .nameError
    else toMonaS f v
  | .init, v =>
    if v = "max($)" then .ok (some "(0 = max($))")
    else .ok (some ("(" ++ v ++ " = 0)"))
  | .pynone, _ => .error .attributeError
  | .pylist _, _ => .error .attributeError

/-- `to_mona` of every child of an n-ary operator, left to right. -/
def toMonaList : LTLfList → String → Except PyErr (List (Option String))
  | .nil, _ => .ok []
  | .cons f tl, v => do
    let r ← toMona f v
    let rs ← toMonaList tl v
    .ok (r :: rs)

/-- `to_mona_s`: the primed/shifted MONA encoding of `ltlf.py`.
`LTLfHistorically` and `LTLfEnd` do not define it, so the base method
returns Python `None` (`.ok none`). -/
def toMonaS : LTLf → String → Except PyErr (Option String)
  | .atom s, v =>
    if v ≠ "0" then .ok (some ("(" ++ v ++ " in " ++ upperStr s ++ "_p)"))
    else .ok (some ("(0 in " ++ upperStr s ++ "_p)"))
  | .patom s, v =>
    -- Modelled from the spec (`pl.py` missing): primed companion of an atom.
    if v ≠ "0" then .ok (some ("(" ++ v ++ " in " ++ upperStr s ++ "_p)"))
    else .ok (some ("(0 in " ++ upperStr s ++ "_p)"))
  | .tt, _ => .ok (some "true")
  | .ff, _ => .ok (some "false")
  | .lnot f, v => do
    let rs ← toMonaS f v
    let r ← toMona f v
    .ok (some ("(~" ++ fmtPy rs ++ " & ~" ++ fmtPy r ++ ")"))
  | .land fs, v => do
    let rs ← toMonaSList fs v
    let j ← joinMona " & " rs
    .ok (some ("(" ++ j ++ ")"))
  | .lor fs, v => do
    let rs ← toMonaSList fs v
    let j ← joinMona " | " rs
    .ok (some ("(" ++ j ++ ")"))
  | .limp fs, v =>
    match fs with
    | .cons a (.cons b _) => do
      let ra ← toMona a v
      let rb ← toMona b v
      let sa ← toMonaS a v
      let sb ← toMonaS b v
      .ok (some ("((" ++ fmtPy ra ++ " => " ++ fmtPy rb ++ ") & (" ++ fmtPy sa ++ " => " ++
        fmtPy sb ++ "))"))
    | _ => .error .valueError
  | .liff fs, v =>
    match fs with
    | .cons a (.cons b _) => do
      let ra ← toMona a v
      let rb ← toMona b v
      let sa ← toMonaS a v
      let sb ← toMonaS b v
      .ok (some ("(" ++ fmtPy ra ++ " <=> " ++ fmtPy rb ++ ") &  (" ++ fmtPy sa ++
        " <=> " ++ fmtPy sb ++ ")"))
    | _ => .error .valueError
  | .lnext f, v =>
    let ex := newVar v
    if v ≠ "0" then do
      let r ← toMonaS f ex
      .ok (some ("(ex1 " ++ ex ++ ": " ++ ex ++ "=" ++ v ++ "+1 & " ++ fmtPy r ++ ")"))
    else do
      let r ← toMonaS f ex
      .ok (some ("(ex1 " ++ ex ++ ": " ++ ex ++ "=1 & " ++ fmtPy r ++ ")"))
  | .wnext f, v =>
    let ex := newVar v
    if v ≠ "0" then do
      let r ← toMonaS f ex
      .ok (some ("((" ++ v ++ " = max($)) | (ex1 " ++ ex ++ ": " ++ ex ++ "=" ++ v ++
        "+1 & " ++ fmtPy r ++ "))"))
    else do
      let r ← toMonaS f ex
      .ok (some ("((0 = max($)) | (ex1 " ++ ex ++ ": " ++ ex ++ "=1 & " ++ fmtPy r ++ "))"))
  | .luntil fs, v =>
    let ex := newVar v
    let al := newVar ex
    match fs with
    | .nil => .error .indexError
    | .cons a .nil => do
      let _ ← toMonaS a al
      .error .indexError
    | .cons a (.cons b _) => do
      let f1 ← toMonaS a al
      let f2 ← toMonaS b ex
      .ok (some ("(ex1 " ++ ex ++ ": " ++ v ++ "<=" ++ ex ++ "&" ++ ex ++ "<=max($) & " ++
        fmtPy f2 ++ " & (all1 " ++ al ++ ": " ++ v ++ "<=" ++ al ++ "&" ++ al ++ "<" ++
        ex ++ " => " ++ fmtPy f1 ++ "))"))
  | .lrel fs, v =>
    let al := newVar v
    let ex := newVar al
    match fs with
    | .nil => .error .indexError
    | .cons a .nil => do
      let _ ← toMonaS a ex
      .error .indexError
    | .cons a (.cons b _) => do
      let f1 ← toMonaS a ex
      let f2 ← toMonaS b al
      .ok (some ("(all1 " ++ al ++ ": (" ++ v ++ "<=" ++ al ++ "&" ++ al ++
        "<=max($)) => (" ++ fmtPy f2 ++ " | (ex1 " ++ ex ++ ": " ++ v ++ " <= " ++ ex ++
        " & " ++ ex ++ " < " ++ al ++ " & " ++ fmtPy f1 ++ ")))"))
  | .ev f, v => do
    let ex := newVar v
    let r ← toMonaS f ex
    .ok (some ("(ex1 " ++ ex ++ ": " ++ v ++ "<=" ++ ex ++ "&" ++ ex ++ "<=max($) & " ++
      fmtPy r ++ ")"))
  | .alw f, v => do
    let al := newVar v
    let r ← toMonaS f al
    .ok (some ("(all1 " ++ al ++ ": " ++ v ++ "<=" ++ al ++ "&" ++ al ++ "<=max($) => " ++
      fmtPy r ++ ")"))
  | .llast, v =>
    if v = "0" then .ok (some "(0 = max($))")
    else .ok (some ("(" ++ v ++ " = max($))"))
  | .lend, _ => .ok none
  | .before f, v =>
    let ex := newVar v
    if v = "0" then .ok (some "(false)")
    else if v = "max($)" then do
      let r ← toMonaS f ex
      .ok (some ("(ex1 " ++ ex ++ ": " ++ ex ++ "=max($)-1 & max($)>0 & " ++ fmtPy r ++ ")"))
    else do
      let r ← toMonaS f ex
      .ok (some ("(ex1 " ++ ex ++ ": " ++ ex ++ "=" ++ v ++ "-1 & " ++ ex ++ ">=0 & " ++
        fmtPy r ++ ")"))
  | .wbefore f, v =>
    let ex := newVar v
    if v = "0" then .ok (some "(true)")
    else if v = "max($)" then do
      let r ← toMonaS f ex
      .ok (some ("((max($) = 0) | (ex1 " ++ ex ++ ": " ++ ex ++ "=max($)-1 & max($)>0 & " ++
        fmtPy r ++ "))"))
    else do
      let r ← toMonaS f ex
      .ok (some ("((" ++ v ++ " = 0)|(ex1 " ++ ex ++ ": " ++ ex ++ "=" ++ v ++ "-1 & " ++
        ex ++ ">=0 & " ++ fmtPy r ++ "))"))
  | .since fs, v =>
    if v ≠ "0" then
      let ex := newVar v
      let al := newVar ex
      match fs with
      | .nil => .error .indexError
      | .cons a .nil => do
        let _ ← toMonaS a al
        .error .indexError
      | .cons a (.cons b _) => do
        let f1 ← toMonaS a al
        let f2 ← toMonaS b ex
        .ok (some ("(ex1 " ++ ex ++ ": 0<=" ++ ex ++ "&" ++ ex ++ "<=" ++ v ++ " & " ++
          fmtPy f2 ++ " & (all1 " ++ al ++ ": (" ++ ex ++ "<" ++ al ++ "&" ++ al ++ "<=" ++
          v ++ ") => " ++ fmtPy f1 ++ "))"))
    else
      match fs with
      | .cons _ (.cons b _) => toMonaS b v
      | _ => .error .indexError
  | .trigger fs, v =>
    if v ≠ "0" then
      let ex := newVar v
      let al := newVar ex
      match fs with
      | .nil => .error .indexError
      | .cons a .nil => do
        let _ ← toMonaS a al
        .error .indexError
      | .cons a (.cons b _) => do
        let f1 ← toMonaS a al
        let f2 ← toMonaS b ex
        .ok (some ("(all1 " ++ ex ++ ": 0<=" ++ ex ++ "&" ++ ex ++ "<=" ++ v ++ " => (" ++
          fmtPy f2 ++ " | (ex1 " ++ al ++ ": (" ++ ex ++ "<" ++ al ++ "&" ++ al ++ "<=" ++
          v ++ ") &  " ++ fmtPy f1 ++ ")))"))
    else
      match fs with
      | .cons _ (.cons b _) => toMonaS b v
      | _ => .error .indexError
  | .once f, v =>
    if v ≠ "0" then do
      let ex := newVar v
      let r ← toMonaS f ex
      .ok (some ("(ex1 " ++ ex ++ ": 0<=" ++ ex ++ "&" ++ ex ++ "<=" ++ v ++ " & " ++
        fmtPy r ++ ")"))
    else toMonaS f v
  | .hist _, _ => .ok none
  | .init, v =>
    if v = "max($)" then .ok (some "(0 = max($))")
    else .ok (some ("(" ++ v ++ " = 0)"))
  | .pynone, _ => .error .attributeError
  | .pylist _, _ => .error .attributeError

/-- `to_mona_s` of every child of an n-ary operator, left to right. -/
def toMonaSList : LTLfList → String → Except PyErr (List (Option String))
  | .nil, _ => .ok []
  | .cons f tl, v => do
    let r ← toMonaS f v
    let rs ← toMonaSList tl v
    .ok (r :: rs)

end

/-! Operator spellings. `symbols.py` is not under `src/`; the spellings
below are modelled from the spec's canonical-string requirement (§4.1) and
the constants visible in `ltlf.py` (`true`, `false`, `last`, `end`).  No
claim depends on the exact operator glyphs: they only reach the output
inside the leading comment line of a program. -/

/-- Modelled from the spec: `Symbols.NOT.value`. -/
def symNOT : String := "!"
/-- Modelled from the spec: `Symbols.AND.value`. -/
def symAND : String := "&"
/-- Modelled from the spec: `Symbols.OR.value`. -/
def symOR : String := "|"
/-- Modelled from the spec: `Symbols.IMPLIES.value`. -/
def symIMPLIES : String := "->"
/-- Modelled from the spec: `Symbols.EQUIVALENCE.value`. -/
def symEQUIV : String := "<->"
/-- Modelled from the spec: `Symbols.NEXT.value`. -/
def symNEXT : String := "X"
/-- Modelled from the spec: `Symbols.WEAK_NEXT.value`. -/
def symWNEXT : String := "WX"
/-- Modelled from the spec: `Symbols.UNTIL.value`. -/
def symUNTIL : String := "U"
/-- Modelled from the spec: `Symbols.RELEASE.value`. -/
def symRELEASE : String := "R"
/-- Modelled from the spec: `Symbols.EVENTUALLY.value`. -/
def symEVENTUALLY : String := "F"
/-- Modelled from the spec: `Symbols.ALWAYS.value`. -/
def symALWAYS : String := "G"
/-- Modelled from the spec: `Symbols.BEFORE.value`. -/
def symBEFORE : String := "Y"
/-- Modelled from the spec: `Symbols.WBEFORE.value`. -/
def symWBEFORE : String := "WY"
/-- Modelled from the spec: `Symbols.SINCE.value`. -/
def symSINCE : String := "S"
/-- Modelled from the spec: `Symbols.TRIGGER.value`. -/
def symTRIGGER : String := "T"
/-- Modelled from the spec: `Symbols.ONCE.value`. -/
def symONCE : String := "O"
/-- Modelled from the spec: `Symbols.HISTORICALLY.value`. -/
def symHIST : String := "H"

mutual

/-- `__str__`: `AtomicFormula` prints its name, `UnaryOperator` prints
`op(child)`, `BinaryOperator` prints `(c1 op c2 op ...)`, `LTLfLast` prints
the last symbol, `LTLfEnd` joins its members, and `LTLfInit.__str__` also
returns `Symbols.LAST.value` (sic, line 1241 of `ltlf.py`). -/
def strF : LTLf → String
  | .atom s => s
  | .patom s => s
  | .tt => "true"
  | .ff => "false"
  | .lnot f => symNOT ++ "(" ++ strF f ++ ")"
  | .land fs => "(" ++ String.intercalate (" " ++ symAND ++ " ") (strFList fs) ++ ")"
  | .lor fs => "(" ++ String.intercalate (" " ++ symOR ++ " ") (strFList fs) ++ ")"
  | .limp fs => "(" ++ String.intercalate (" " ++ symIMPLIES ++ " ") (strFList fs) ++ ")"
  | .liff fs => "(" ++ String.intercalate (" " ++ symEQUIV ++ " ") (strFList fs) ++ ")"
  | .lnext f => symNEXT ++ "(" ++ strF f ++ ")"
  | .wnext f => symWNEXT ++ "(" ++ strF f ++ ")"
  | .luntil fs => "(" ++ String.intercalate (" " ++ symUNTIL ++ " ") (strFList fs) ++ ")"
  | .lrel fs => "(" ++ String.intercalate (" " ++ symRELEASE ++ " ") (strFList fs) ++ ")"
  | .ev f => symEVENTUALLY ++ "(" ++ strF f ++ ")"
  | .alw f => symALWAYS ++ "(" ++ strF f ++ ")"
  | .llast => "last"
  | .lend => "end"
  | .before f => symBEFORE ++ "(" ++ strF f ++ ")"
  | .wbefore f => symWBEFORE ++ "(" ++ strF f ++ ")"
  | .since fs => "(" ++ String.intercalate (" " ++ symSINCE ++ " ") (strFList fs) ++ ")"
  | .trigger fs => "(" ++ String.intercalate (" " ++ symTRIGGER ++ " ") (strFList fs) ++ ")"
  | .once f => symONCE ++ "(" ++ strF f ++ ")"
  | .hist f => symHIST ++ "(" ++ strF f ++ ")"
  | .init => "last"
  | .pynone => "None"
  | .pylist fs => "[" ++ String.intercalate ", " (strFList fs) ++ "]"

/-- `map(str, formulas)`. -/
def strFList : LTLfList → List String
  | .nil => []
  | .cons f tl => strF f :: strFList tl

end

mutual

/-- `find_labels`: the set of atomic symbols of a subtree, as the list of
first occurrences in a left-to-right traversal (Python returns an unordered
set; an iteration order must be fixed to model the joins over it).
`LTLfTrue`/`LTLfFalse` contribute nothing; `None`/list children raise
`AttributeError`. -/
def labelsE : LTLf → Except PyErr (List String)
  | .atom s => .ok [s]
  | .patom s => .ok [s]
  | .tt => .ok []
  | .ff => .ok []
  | .lnot f => labelsE f
  | .land fs => labelsEList fs
  | .lor fs => labelsEList fs
  | .limp fs => labelsEList fs
  | .liff fs => labelsEList fs
  | .lnext f => labelsE f
  | .wnext f => labelsE f
  | .luntil fs => labelsEList fs
  | .lrel fs => labelsEList fs
  | .ev f => labelsE f
  | .alw f => labelsE f
  | .llast => .ok []
  | .lend => .ok []
  | .before f => labelsE f
  | .wbefore f => labelsE f
  | .since fs => labelsEList fs
  | .trigger fs => labelsEList fs
  | .once f => labelsE f
  | .hist f => labelsE f
  | .init => .ok []
  | .pynone => .error .attributeError
  | .pylist _ => .error .attributeError

/-- `set.union(*map(find_labels, formulas))`, deduplicated keeping first
occurrences. -/
def labelsEList : LTLfList → Except PyErr (List String)
  | .nil => .ok []
  | .cons f tl => do
    let l ← labelsE f
    let ls ← labelsEList tl
    .ok ((l ++ ls).foldl (fun acc x => if x ∈ acc then acc else acc ++ [x]) [])

end

/-- Insert keeping the first occurrence (models membership in a Python set
under one fixed enumeration order). -/
def dedupKF (l : List String) : List String :=
  l.foldl (fun acc x => if x ∈ acc then acc else acc ++ [x]) []

/-- `MonaProgram._set_vars`: the upper-cased free labels of the formula. -/
def progVarsE (f : LTLf) : Except PyErr (List String) := do
  let ls ← labelsE f
  .ok (dedupKF (ls.map upperStr))

/-- `MonaProgram.header`. -/
def monaHeader : String := "m2l-str"

/-- `MonaProgram(f).mona_program()`: a leading comment line `#<formula>;`,
the header line, a `var2` line over the instance's vars when that set is
non-empty, and the body assertion `f.to_mona("0")` terminated by `;`. -/
def monaProgram (f : LTLf) : Except PyErr String := do
  let vars ← progVarsE f
  if vars ≠ [] then do
    let body ← toMona f "0"
    .ok ("#" ++ strF f ++ ";\n" ++ monaHeader ++ ";\nvar2 " ++
      String.intercalate ", " vars ++ ";\n" ++ fmtPy body ++ ";\n")
  else do
    let body ← toMona f "0"
    .ok ("#" ++ strF f ++ ";\n" ++ monaHeader ++ ";\n" ++ fmtPy body ++ ";\n")

/-- `",".join(["{0},{0}_p".format(v) for v in vs])`. -/
def pairJoin (vs : List String) : String :=
  String.intercalate "," (vs.map (fun v => v ++ "," ++ v ++ "_p"))

/-- `"&".join(["{0}_p sub {0}".format(v) for v in vs])`. -/
def subJoin (vs : List String) : String :=
  String.intercalate "&" (vs.map (fun v => v ++ "_p sub " ++ v))

/-- `",".join(vs)`. -/
def plainJoin (vs : List String) : String := String.intercalate "," vs

/-- `MonaSF(f1, f2).mona_program()`: the cross-signature strong-equivalence
program of `base.py` (the variant whose class defines `header`). -/
def monaSF (f1 f2 : LTLf) : Except PyErr String := do
  let l1 ← labelsE f1
  let l2 ← labelsE f2
  let v1 := dedupKF (l1.map upperStr)
  let v2 := dedupKF (l2.map upperStr)
  let vars := dedupKF (l1.map upperStr ++ l2.map upperStr)
  if v1.all (· ∈ v2) ∧ v2.all (· ∈ v1) then
    if v1 = [] ∧ v2 = [] then do
      let m1 ← toMona f1 "0"
      let m2 ← toMona f2 "0"
      let s1 ← toMonaS f1 "0"
      let s2 ← toMonaS f2 "0"
      .ok ("#" ++ strF f1 ++ " <-> " ++ strF f2 ++ " in THTf;\n" ++ monaHeader ++
        ";\n ~(((" ++ fmtPy m1 ++ ") <=> (" ++ fmtPy m2 ++ ")) & ((" ++ fmtPy s1 ++
        ") <=>(" ++ fmtPy s2 ++ ")));\n")
    else do
      let m1 ← toMona f1 "0"
      let m2 ← toMona f2 "0"
      let s1 ← toMonaS f1 "0"
      let s2 ← toMonaS f2 "0"
      .ok ("#" ++ strF f1 ++ " <-> " ++ strF f2 ++ " in THTf;\n" ++ monaHeader ++
        ";\nvar2 " ++ pairJoin vars ++ ";\n  ~((" ++ subJoin vars ++ ") => (((" ++
        fmtPy m1 ++ ") <=> (" ++ fmtPy m2 ++ ")) & ((" ++ fmtPy s1 ++ ") <=>(" ++
        fmtPy s2 ++ "))));\n")
  else if v1.all (· ∈ v2) then do
    let exv2 := v2.filter (· ∉ v1)
    let head := "#(" ++ strF f1 ++ ") <->(ex2 " ++ plainJoin exv2 ++ ": (" ++ strF f2 ++
      ")) ;\n" ++ monaHeader ++ ";\n"
    if v1 ≠ [] then do
      let m1 ← toMona f1 "0"
      let m2 ← toMona f2 "0"
      let s1 ← toMonaS f1 "0"
      let s2 ← toMonaS f2 "0"
      .ok (head ++ "var2 " ++ pairJoin v1 ++ ";\n" ++
        "~((" ++ fmtPy m1 ++ " <=> (ex2 " ++ plainJoin exv2 ++ ": " ++ fmtPy m2 ++
        ")) & ((" ++ subJoin v1 ++ " & " ++ fmtPy s1 ++ ") <=> (ex2 " ++ pairJoin exv2 ++
        ": (" ++ subJoin v2 ++ " & " ++ fmtPy s2 ++ ")))) ;\n")
    else do
      let m1 ← toMona f1 "0"
      let m2 ← toMona f2 "0"
      let s1 ← toMonaS f1 "0"
      let s2 ← toMonaS f2 "0"
      .ok (head ++
        "~((" ++ fmtPy m1 ++ " <=> (ex2 " ++ plainJoin exv2 ++ ": " ++ fmtPy m2 ++
        ")) & ((" ++ fmtPy s1 ++ ") <=> (ex2 " ++ pairJoin exv2 ++ ": (" ++ subJoin v2 ++
        " & " ++ fmtPy s2 ++ ")))) ;\n")
  else if v2.all (· ∈ v1) then do
    let exv1 := v1.filter (· ∉ v2)
    let m1 ← toMona f1 "0"
    let m2 ← toMona f2 "0"
    let s1 ← toMonaS f1 "0"
    let s2 ← toMonaS f2 "0"
    .ok ("#(ex2 " ++ plainJoin exv1 ++ " : (" ++ strF f1 ++ ")) <->(" ++ strF f2 ++
      ") ;\n" ++ monaHeader ++ ";\nvar2 " ++ pairJoin v2 ++ ";\n ~(((ex2 " ++
      plainJoin exv1 ++ ": " ++ fmtPy m1 ++ ") <=> (" ++ fmtPy m2 ++ ")) & ((ex2 " ++
      pairJoin exv1 ++ ": " ++ subJoin v1 ++ " & " ++ fmtPy s1 ++ ") <=> (" ++
      subJoin v2 ++ " & " ++ fmtPy s2 ++ "))) ;\n")
  else do
    let fv := v1.filter (· ∈ v2)
    let exv1 := v1.filter (· ∉ fv)
    let exv2 := v2.filter (· ∉ fv)
    let m1 ← toMona f1 "0"
    let m2 ← toMona f2 "0"
    let s1 ← toMonaS f1 "0"
    let s2 ← toMonaS f2 "0"
    .ok ("#(ex2 " ++ plainJoin exv1 ++ ":" ++ strF f1 ++ ") <->(ex2 " ++
      plainJoin exv2 ++ ": (" ++ strF f2 ++ ")) ;\n" ++ monaHeader ++ ";\nvar2 " ++
      pairJoin fv ++ ";\n ~( ( (ex2 " ++ plainJoin exv1 ++ ": " ++ fmtPy m1 ++
      " )<=> (ex2 " ++ plainJoin exv2 ++ " : " ++ fmtPy m2 ++ ")) &  ( (ex2 " ++
      pairJoin exv1 ++ ": " ++ subJoin v1 ++ " &  " ++ fmtPy s1 ++ " )<=> (ex2 " ++
      pairJoin exv2 ++ " : " ++ subJoin v2 ++ " & " ++ fmtPy s2 ++ "))) ;\n")

/-- `MonaPSE(f1, f2).mona_program()`: the class defines no `header`
attribute, and every branch of `mona_program` interpolates `self.header`
before any encoder runs, so after `find_labels` succeeds the call raises
`AttributeError` unconditionally. -/
def monaPSE (f1 f2 : LTLf) : Except PyErr String := do
  let _ ← labelsE f1
  let _ ← labelsE f2
  .error .attributeError

/-! Construction-time validation (`AtomicFormula.__init__`,
`BinaryOperator.__init__`). -/

/-- A character of the class `[a-z]`. -/
def isLowerAZ (c : Char) : Bool := 'a' ≤ c && c ≤ 'z'

/-- `re.fullmatch` of `LTLfAtomic.name_regex`, `[a-z][a-z0-9_]*`. -/
def ltlfNameOk (s : String) : Bool :=
  match s.data with
  | [] => false
  | c :: rest => isLowerAZ c && rest.all (fun d => isLowerAZ d || d.isDigit || d = '_')

/-- A word character for the base grammar `(\w+)|(".*")` of
`AtomicFormula.name_regex` (ASCII reading of `\w`). -/
def isWordChar (c : Char) : Bool := c.isAlphanum || c = '_'

/-- `re.fullmatch` of the base `AtomicFormula.name_regex`: a non-empty word,
or a fully quoted single-line string. -/
def baseNameOk (s : String) : Bool :=
  (decide (s.data ≠ []) && s.data.all isWordChar) ||
  (match s.data with
   | '"' :: c :: cs => ((c :: cs).dropLast.all (· ≠ '\n')) && ((c :: cs).getLast? = some '"')
   | _ => false)

/-- `LTLfAtomic(s)` for a string name: raises `ValueError` exactly when the
name does not fully match `[a-z][a-z0-9_]*` (the regex `LTLfAtomic`
overrides the base class with). -/
def ltlfAtomicNew (s : String) : Except PyErr LTLf :=
  if ltlfNameOk s then .ok (.atom s) else .error .valueError

/-- The n-ary operator classes sharing `BinaryOperator.__init__`. -/
inductive BinTag where
  | andT | orT | impT | iffT | untilT | relT | sinceT | triggerT
  deriving DecidableEq

/-- The node built by `type(self)(formulas)` for each n-ary class. -/
def binOfTag : BinTag → LTLfList → LTLf
  | .andT, fs => .land fs
  | .orT, fs => .lor fs
  | .impT, fs => .limp fs
  | .iffT, fs => .liff fs
  | .untilT, fs => .luntil fs
  | .relT, fs => .lrel fs
  | .sinceT, fs => .since fs
  | .triggerT, fs => .trigger fs

/-- `BinaryOperator.__init__`: `assert len(formulas) >= 2`, then store the
children; `AssertionError` otherwise, and no formula object is produced. -/
def binaryOperatorNew (t : BinTag) (fs : LTLfList) : Except PyErr LTLf :=
  if 2 ≤ lenL fs then .ok (binOfTag t fs) else .error .assertError

/-- Wrap every child in `LTLfNot` (the list comprehension of
`LTLfEquivalence.to_nnf`). -/
def mapNotL : LTLfList → LTLfList
  | .nil => .nil
  | .cons f tl => .cons (.lnot f) (mapNotL tl)

mutual

/-- `to_nnf` of `ltlf.py`, with fuel standing for the Python stack
(`RecursionError` when exhausted).  Faithful quirks: `LTLfEventually` and
`LTLfOnce` rewrite to `Until(True, f)` / `Since(True, f)` WITHOUT recursing
into `f`; `LTLfWBefore.to_nnf` returns Python `None`; `LTLfHistorically` and
`LTLfInit` fall back to the base method returning `self`. -/
def toNNF : Nat → LTLf → Except PyErr LTLf
  | 0, _ => .error .recursionError
  | n + 1, f =>
    match f with
    | .atom _ | .patom _ | .tt | .ff => .ok f
    | .lnot g =>
      if isAtomicF g then .ok (.lnot g)
      else do
        let h ← negateF n g
        toNNF n h
    | .land fs => do
      let gs ← toNNFList n fs
      if 2 ≤ lenL gs then .ok (.land gs) else .error .assertError
    | .lor fs => do
      let gs ← toNNFList n fs
      if 2 ≤ lenL gs then .ok (.lor gs) else .error .assertError
    | .limp fs =>
      match fs with
      | .cons a (.cons b rest) => do
        let x ← toNNF n (.lnot a)
        let y ← toNNF n b
        impLoop n (.lor (two x y)) rest
      | _ => .error .valueError
    | .liff fs =>
      if 2 ≤ lenL fs then
        toNNF n (.lor (two (.land fs) (.land (mapNotL fs))))
      else .error .assertError
    | .lnext g => do
      let h ← toNNF n g
      .ok (.lnext h)
    | .wnext g => do
      let h ← toNNF n g
      .ok (.wnext h)
    | .luntil fs => do
      let gs ← toNNFList n fs
      if 2 ≤ lenL gs then .ok (.luntil gs) else .error .assertError
    | .lrel fs => do
      let gs ← toNNFList n fs
      if 2 ≤ lenL gs then .ok (.lrel gs) else .error .assertError
    | .ev g => .ok (.luntil (two .tt g))
    | .alw g => do
      let h ← toNNF n g
      .ok (.lrel (two .ff h))
    | .llast => toNNF n (.land (two (.wnext .ff) (.lnot .lend)))
    | .lend => toNNF n (.alw .ff)
    | .before g => do
      let h ← toNNF n g
      .ok (.before h)
    | .wbefore _ => .ok .pynone
    | .since fs => do
      let gs ← toNNFList n fs
      if 2 ≤ lenL gs then .ok (.since gs) else .error .assertError
    | .trigger fs => do
      let gs ← toNNFList n fs
      if 2 ≤ lenL gs then .ok (.trigger gs) else .error .assertError
    | .once g => .ok (.since (two .tt g))
    | .hist g => .ok (.hist g)
    | .init => .ok .init
    | .pynone => .error .attributeError
    | .pylist _ => .error .attributeError

/-- `[f.to_nnf() for f in formulas]`. -/
def toNNFList : Nat → LTLfList → Except PyErr LTLfList
  | 0, _ => .error .recursionError
  | n + 1, fs =>
    match fs with
    | .nil => .ok .nil
    | .cons h t => do
      let h2 ← toNNF n h
      let t2 ← toNNFList n t
      .ok (.cons h2 t2)

/-- The accumulation loop of `LTLfImplies.to_nnf` over the operands beyond
the second. -/
def impLoop : Nat → LTLf → LTLfList → Except PyErr LTLf
  | 0, _, _ => .error .recursionError
  | _ + 1, final, .nil => .ok final
  | n + 1, final, .cons h t => do
    let x ← toNNF n (.lnot final)
    let y ← toNNF n h
    impLoop n (.lor (two x y)) t

/-- `negate` of `ltlf.py`.  `LTLfSince`/`LTLfTrigger` build `LTLfNot`
around a raw Python list (`.pylist`); `LTLfHistorically`/`LTLfInit` call
`self.to_nnf().negate()` with `to_nnf` the identity, so they recurse until
the interpreter's limit (`RecursionError`, i.e. fuel exhaustion). -/
def negateF : Nat → LTLf → Except PyErr LTLf
  | 0, _ => .error .recursionError
  | n + 1, f =>
    match f with
    | .atom s => .ok (.lnot (.atom s))
    | .patom s =>
      -- Modelled from the spec (`pl.py` missing): an atom negates to its
      -- negation node.
      .ok (.lnot (.patom s))
    | .tt => .ok .ff
    | .ff => .ok .tt
    | .lnot g => .ok g
    | .land fs => do
      let gs ← negateList n fs
      if 2 ≤ lenL gs then .ok (.lor gs) else .error .assertError
    | .lor fs => do
      let gs ← negateList n fs
      if 2 ≤ lenL gs then .ok (.land gs) else .error .assertError
    | .limp fs => do
      let p ← toNNF n (.limp fs)
      negateF n p
    | .liff fs => do
      let p ← toNNF n (.liff fs)
      negateF n p
    | .lnext g => do
      let h ← negateF n g
      .ok (.wnext h)
    | .wnext g => do
      let h ← negateF n g
      .ok (.lnext h)
    | .luntil fs => do
      let gs ← negateList n fs
      if 2 ≤ lenL gs then .ok (.lrel gs) else .error .assertError
    | .lrel fs => do
      let gs ← negateList n fs
      if 2 ≤ lenL gs then .ok (.luntil gs) else .error .assertError
    | .ev g => do
      let p ← toNNF n (.ev g)
      negateF n p
    | .alw g => do
      let p ← toNNF n (.alw g)
      negateF n p
    | .llast => do
      let p ← toNNF n .llast
      negateF n p
    | .lend => do
      let p ← toNNF n .lend
      negateF n p
    | .before g => do
      let h ← negateF n g
      .ok (.lnot h)
    | .wbefore g => do
      let h ← negateF n g
      .ok (.lnot h)
    | .since fs => do
      let gs ← negateList n fs
      .ok (.lnot (.pylist gs))
    | .trigger fs => do
      let gs ← negateList n fs
      .ok (.lnot (.pylist gs))
    | .once g => do
      let p ← toNNF n (.once g)
      negateF n p
    | .hist g => do
      let p ← toNNF n (.hist g)
      negateF n p
    | .init => do
      let p ← toNNF n .init
      negateF n p
    | .pynone => .error .attributeError
    | .pylist _ => .error .attributeError

/-- `[f.negate() for f in formulas]`. -/
def negateList : Nat → LTLfList → Except PyErr LTLfList
  | 0, _ => .error .recursionError
  | n + 1, fs =>
    match fs with
    | .nil => .ok .nil
    | .cons h t => do
      let h2 ← negateF n h
      let t2 ← negateList n t
      .ok (.cons h2 t2)

end

mutual

/-- The claimed NNF postcondition: no `Not` node whose child is a
non-atomic formula. -/
def noBadNot : LTLf → Bool
  | .lnot g => isAtomicF g
  | .land fs | .lor fs | .limp fs | .liff fs | .luntil fs | .lrel fs
  | .since fs | .trigger fs | .pylist fs => noBadNotL fs
  | .lnext g | .wnext g | .ev g | .alw g | .before g | .wbefore g
  | .once g | .hist g => noBadNot g
  | _ => true

/-- `noBadNot` on every child. -/
def noBadNotL : LTLfList → Bool
  | .nil => true
  | .cons h t => noBadNot h && noBadNotL t

end

mutual

/-- The operator fragment on which `to_nnf` provably establishes the NNF
postcondition: named atoms, constants, negation, and/or,
implication/equivalence, next/weak-next, until/release, always,
last/end and the past `before`, with n-ary arity at least 2.
Excluded (each breaks the postcondition or crashes): `eventually` and
`once` (no recursion into the operand), `historically` (identity `to_nnf`),
`wbefore` (returns `None`), `since`/`trigger` (their `negate` builds a
`Not` around a raw list, so `to_nnf` of their negation raises), `init`
(negation loops), and the synthetic `patom`/`pynone`/`pylist`. -/
def wfG : LTLf → Bool
  | .atom _ | .tt | .ff | .llast | .lend => true
  | .lnot g => wfG g
  | .land fs | .lor fs | .limp fs | .liff fs | .luntil fs | .lrel fs =>
    (2 ≤ lenL fs) && wfGL fs
  | .lnext g | .wnext g | .alw g | .before g => wfG g
  | _ => false

/-- `wfG` on every child. -/
def wfGL : LTLfList → Bool
  | .nil => true
  | .cons h t => wfG h && wfGL t

end

mutual

/-- The image fragment of `to_nnf`: operators whose `negate` is purely
structural (never re-enters `to_nnf`). -/
def easyNeg : LTLf → Bool
  | .atom _ | .tt | .ff => true
  | .lnot g => easyNeg g
  | .land fs | .lor fs | .luntil fs | .lrel fs => (2 ≤ lenL fs) && easyNegL fs
  | .lnext g | .wnext g | .before g => easyNeg g
  | _ => false

/-- `easyNeg` on every child. -/
def easyNegL : LTLfList → Bool
  | .nil => true
  | .cons h t => easyNeg h && easyNegL t

end

mutual

/-- Fuel measure: an upper bound on the recursion depth `to_nnf`/`negate`
need on the `wfG` fragment. -/
def wt : LTLf → Nat
  | .atom _ | .patom _ | .tt | .ff => 1
  | .lnot g => wt g + (if isAtomicF g then 1 else 3)
  | .land fs | .lor fs | .luntil fs | .lrel fs | .since fs | .trigger fs
  | .pylist fs => wtL fs + 1
  | .limp fs => wtSumL fs + 7 * lenL fs + 1
  | .liff fs => wtL fs + 9
  | .lnext g | .wnext g | .ev g | .once g | .hist g | .wbefore g => wt g + 1
  | .alw g => wt g + 4
  | .before g => wt g + 3
  | .llast => 13
  | .lend => 6
  | .init => 1
  | .pynone => 1

/-- Maximum-style measure of a child list. -/
def wtL : LTLfList → Nat
  | .nil => 1
  | .cons h t => 1 + max (wt h) (wtL t)

/-- Sum-style measure of a child list (for the implication loop). -/
def wtSumL : LTLfList → Nat
  | .nil => 0
  | .cons h t => wt h + wtSumL t

end

/-! The sharing clausifier (`gen_tlp` / `_to_tlp`). -/

/-- The mutable state threaded through `_to_tlp`: the memo dict `exv`
(newest entry first; keys are unique because an entry is only added after a
failed lookup) and the constraint set `df`. -/
structure TlpSt where
  exv : List (LTLf × LTLf)
  df : Finset LTLf

/-- Dict lookup by structural equality (`Hashable.__eq__`). -/
def lookupExv (f : LTLf) : List (LTLf × LTLf) → Option LTLf
  | [] => none
  | (k, w) :: t => if f = k then some w else lookupExv f t

/-- The fresh-variable name `"v" + str(len(exv))`. -/
def vname (i : Nat) : String := "v" ++ toString i

/-- `new_var2`: allocate `PLAtomic("v" + str(len(exv)))` and memoize the
formula to it. -/
def newVar2 (f : LTLf) (s : TlpSt) : LTLf × TlpSt :=
  let nv : LTLf := .patom (vname s.exv.length)
  (nv, ⟨(f, nv) :: s.exv, s.df⟩)

/-- `df.add(c)`. -/
def addDf (s : TlpSt) (c : LTLf) : TlpSt := ⟨s.exv, insert c s.df⟩

mutual

/-- `_to_tlp` of `ltlf.py`.  Atomic formulas and `LTLfLast`/`LTLfEnd`
return themselves without touching the state; the past operators and
`LTLfInit` have no `_to_tlp`, so the base method returns Python `None`;
`LTLfEventually` misspells the recursive call as `to_tlp`, raising
`AttributeError` whenever its operand is not already memoized. -/
def tlp : Nat → LTLf → TlpSt → Except PyErr (LTLf × TlpSt)
  | 0, _, _ => .error .recursionError
  | n + 1, f, s =>
    match f with
    | .atom _ | .patom _ | .tt | .ff | .llast | .lend => .ok (f, s)
    | .before _ | .wbefore _ | .since _ | .trigger _ | .once _ | .hist _
    | .init => .ok (.pynone, s)
    | .pynone | .pylist _ => .error .attributeError
    | .lnot g =>
      match lookupExv f s.exv with
      | some w => .ok (w, s)
      | none =>
        let (nv, s1) := newVar2 f s
        do
          let r ← lkOr n g s1
          .ok (nv, addDf r.2 (.alw (.liff (two nv (.lnot r.1)))))
    | .land fs =>
      match lookupExv f s.exv with
      | some w => .ok (w, s)
      | none =>
        let (nv, s1) := newVar2 f s
        do
          let r ← tlpSeq n fs s1
          if 2 ≤ lenL r.1 then
            .ok (nv, addDf r.2 (.alw (.liff (two nv (.land r.1)))))
          else .error .assertError
    | .lor fs =>
      match lookupExv f s.exv with
      | some w => .ok (w, s)
      | none =>
        let (nv, s1) := newVar2 f s
        do
          let r ← tlpSeq n fs s1
          if 2 ≤ lenL r.1 then
            .ok (nv, addDf r.2 (.alw (.liff (two nv (.lor r.1)))))
          else .error .assertError
    | .limp fs =>
      match lookupExv f s.exv with
      | some w => .ok (w, s)
      | none =>
        let (nv, s1) := newVar2 f s
        match fs with
        | .nil => .error .indexError
        | .cons a .nil => do
          let _ ← lkOr n a s1
          .error .indexError
        | .cons a (.cons b _) => do
          let r1 ← lkOr n a s1
          let r2 ← lkOr n b r1.2
          .ok (nv, addDf r2.2 (.alw (.liff (two nv (.limp (two r1.1 r2.1))))))
    | .liff fs =>
      match lookupExv f s.exv with
      | some w => .ok (w, s)
      | none =>
        let (nv, s1) := newVar2 f s
        match fs with
        | .nil => .error .indexError
        | .cons a .nil => do
          let _ ← lkOr n a s1
          .error .indexError
        | .cons a (.cons b _) => do
          let r1 ← lkOr n a s1
          let r2 ← lkOr n b r1.2
          .ok (nv, addDf r2.2 (.alw (.liff (two nv (.liff (two r1.1 r2.1))))))
    | .lnext g =>
      match lookupExv f s.exv with
      | some w => .ok (w, s)
      | none =>
        let (nv, s1) := newVar2 f s
        do
          let r ← lkOr n g s1
          .ok (nv, addDf (addDf r.2 (.alw (.liff (two nv (.lnext r.1)))))
            (.alw (.limp (two .llast (.lnot nv)))))
    | .wnext g =>
      match lookupExv f s.exv with
      | some w => .ok (w, s)
      | none =>
        let (nv, s1) := newVar2 f s
        do
          let r ← lkOr n g s1
          .ok (nv, addDf (addDf r.2 (.alw (.liff (two nv (.wnext r.1)))))
            (.alw (.limp (two .llast nv))))
    | .luntil fs =>
      match lookupExv f s.exv with
      | some w => .ok (w, s)
      | none =>
        let (nv, s1) := newVar2 f s
        match fs with
        | .nil => .error .indexError
        | .cons a .nil => do
          let _ ← lkOr n a s1
          .error .indexError
        | .cons a (.cons b _) => do
          let r1 ← lkOr n a s1
          let r2 ← lkOr n b r1.2
          let r3 ← lkOr n (.lnext f) r2.2
          .ok (nv, addDf r3.2
            (.alw (.liff (two nv (.lor (two r2.1 (.land (two r1.1 r3.1))))))))
    | .lrel fs =>
      match lookupExv f s.exv with
      | some w => .ok (w, s)
      | none =>
        let (nv, s1) := newVar2 f s
        match fs with
        | .nil => .error .indexError
        | .cons a .nil => do
          let _ ← lkOr n a s1
          .error .indexError
        | .cons a (.cons b _) => do
          let r1 ← lkOr n a s1
          let r2 ← lkOr n b r1.2
          let r3 ← lkOr n (.wnext f) r2.2
          .ok (nv, addDf r3.2
            (.alw (.liff (two nv (.land (two r2.1 (.lor (two r1.1 r3.1))))))))
    | .ev g =>
      match lookupExv f s.exv with
      | some w => .ok (w, s)
      | none =>
        let (nv, s1) := newVar2 f s
        match lookupExv g s1.exv with
        | none => .error .attributeError
        | some f1 => do
          let r2 ← lkOr n (.lnext f) s1
          .ok (nv, addDf r2.2 (.alw (.liff (two nv (.lor (two f1 r2.1))))))
    | .alw g =>
      match lookupExv f s.exv with
      | some w => .ok (w, s)
      | none =>
        let (nv, s1) := newVar2 f s
        do
          let r1 ← lkOr n g s1
          let r2 ← lkOr n (.wnext f) r1.2
          .ok (nv, addDf r2.2 (.alw (.liff (two nv (.land (two r1.1 r2.1))))))

/-- The `for i in self.formulas` loop shared by `LTLfAnd`/`LTLfOr`:
memo-hit or recurse on each child, collecting the child variables in
order. -/
def tlpSeq : Nat → LTLfList → TlpSt → Except PyErr (LTLfList × TlpSt)
  | 0, _, _ => .error .recursionError
  | n + 1, fs, s =>
    match fs with
    | .nil => .ok (.nil, s)
    | .cons h t => do
      let r ← lkOr n h s
      let rs ← tlpSeq n t r.2
      .ok (.cons r.1 rs.1, rs.2)

/-- `assigned_variable` followed by `_to_tlp` when the formula is not yet
memoized (the `if cf == None: cf = i._to_tlp(...)` pattern). -/
def lkOr : Nat → LTLf → TlpSt → Except PyErr (LTLf × TlpSt)
  | 0, _, _ => .error .recursionError
  | n + 1, g, s =>
    match lookupExv g s.exv with
    | some w => .ok (w, s)
    | none => tlp n g s

end

/-- `gen_tlp`: clausify from a fresh memo dict and an empty constraint set
(both allocated per call), then add the root's variable. -/
def genTlp (n : Nat) (f : LTLf) : Except PyErr (Finset LTLf) := do
  let r ← tlp n f ⟨[], ∅⟩
  .ok (insert r.1 r.2.df)

/-- `gen_tlp`, keeping the final memo state (for stating the
fresh-variable invariants). -/
def genTlpSt (n : Nat) (f : LTLf) : Except PyErr (LTLf × TlpSt) :=
  tlp n f ⟨[], ∅⟩

/-! `MonaProgram` instances as objects (claim about `_set_vars` and the
class-level `vars` default). -/

/-- One constructed `MonaProgram` instance: its formula and its instance
`__dict__` entry for `vars` (`none` when the attribute was never assigned,
in which case Python attribute lookup falls back to the class default).
`MonaProgram.__init__` runs `_set_vars`, whose statement `self.vars = ...`
creates the per-instance binding and never touches the class attribute. -/
structure MPInst where
  formula : LTLf
  instVars : Option (List String)

/-- `MonaProgram(f)`: `find_labels` may raise; otherwise the instance gets
its own `vars` binding. -/
def mpNew (f : LTLf) : Except PyErr MPInst := do
  let vs ← progVarsE f
  .ok { formula := f, instVars := some vs }

/-- Python attribute lookup for `inst.vars`: the instance `__dict__` first,
else the class attribute (whatever it currently holds). -/
def mpReadVars (classVars : List String) (p : MPInst) : List String :=
  p.instVars.getD classVars

/-- A sequence of constructions, earlier instances kept as they were
(no constructor mutates an existing instance or the class attribute). -/
def mpBuildAll : List LTLf → Except PyErr (List MPInst)
  | [] => .ok []
  | f :: fs => do
    let p ← mpNew f
    let ps ← mpBuildAll fs
    .ok (p :: ps)

/-! ## Claim theorems -/

deriving instance DecidableEq for Except

/-- String concatenation acts on the underlying character lists. -/
theorem strDataAppend (a b : String) : (a ++ b).data = a.data ++ b.data := rfl

/-- Strings with the same characters are equal. -/
theorem strExt {a b : String} (h : a.data = b.data) : a = b := by
  cases a; cases b; exact congrArg String.mk h

/-- `Except.bind` on a success. -/
theorem bindOk {α β : Type} (a : α) (g : α → Except PyErr β) :
    (Except.ok a >>= g) = g a := rfl

/-- `Except.bind` on a failure. -/
theorem bindErr {α β : Type} (e : PyErr) (g : α → Except PyErr β) :
    ((Except.error e : Except PyErr α) >>= g) = .error e := rfl

/-- C1: the transformations are NOT total over well-formed input.
`LTLfHistorically(LTLfAtomic("a")).to_mona("v_1")` takes the non-initial
branch, whose format call reads the unbound local name `ex_var` and raises
`NameError`. -/
theorem c1_historically_to_mona_raises :
    toMona (.hist (.atom "a")) "v_1" = .error .nameError := rfl

/-- C1 (supporting): `LTLfHistorically.negate` calls `self.to_nnf().negate()`
with `to_nnf` the inherited identity, so it recurses until the interpreter
limit. -/
theorem c1_historically_negate_diverges (n : Nat) :
    negateF n (.hist (.atom "a")) = .error .recursionError := by
  induction n with
  | zero => rfl
  | succ k ih =>
    cases k with
    | zero => rfl
    | succ m =>
      simp only [negateF, toNNF]
      exact ih

/-- C1 (supporting): `LTLfEventually._to_tlp` misspells the recursive call
as `to_tlp`, so `gen_tlp` on an eventuality whose operand is not yet
memoized raises `AttributeError`. -/
theorem c1_eventually_gen_tlp_raises :
    genTlp 5 (.ev (.atom "a")) = .error .attributeError := rfl

/-- C2, counterexample: `LTLfEventually.to_nnf` returns `Until(True, f)`
without normalizing `f`, so `to_nnf` of `F(!(a & b))` keeps a negation
over a conjunction. -/
theorem c2_counterexample :
    toNNF 1 (.ev (.lnot (.land (two (.atom "a") (.atom "b"))))) =
      .ok (.luntil (two .tt (.lnot (.land (two (.atom "a") (.atom "b")))))) ∧
    noBadNot (.luntil (two .tt (.lnot (.land (two (.atom "a") (.atom "b")))))) = false :=
  ⟨rfl, rfl⟩

/-- C4: `MonaPSE.mona_program` never emits anything: the class defines no
`header` attribute and every branch interpolates `self.header`, so once the
label sets are computed the call raises `AttributeError`. -/
theorem c4_monaPSE_always_raises (f1 f2 : LTLf) (l1 l2 : List String)
    (h1 : labelsE f1 = .ok l1) (h2 : labelsE f2 = .ok l2) :
    monaPSE f1 f2 = .error .attributeError := by
  simp only [monaPSE, h1, h2, bindOk]

/-- C4 witness: the degenerate equal-signature pair already crashes. -/
theorem c4_witness :
    monaPSE (.atom "a") (.atom "a") = .error .attributeError :=
  c4_monaPSE_always_raises (.atom "a") (.atom "a") ["a"] ["a"] rfl rfl

/-- C5, counterexample: `Once` at the initial position does not return a
fixed boolean constant — it returns its operand's encoding, which varies
with the operand and is no boolean literal. -/
theorem c5_counterexample :
    toMona (.once (.atom "a")) "0" = .ok (some "(0 in A)") ∧
    toMona (.once (.atom "b")) "0" = .ok (some "(0 in B)") ∧
    "(0 in A)" ≠ "(0 in B)" ∧ "(0 in A)" ≠ "(true)" ∧ "(0 in A)" ≠ "(false)" ∧
    "(0 in A)" ≠ "true" ∧ "(0 in A)" ≠ "false" :=
  ⟨rfl, rfl, by decide, by decide, by decide, by decide, by decide⟩

/-- C5, amended: at the initial position only `Before` and `WBefore` return
fixed boolean constants (`(false)`, `(true)`); `Since` and `Trigger` return
the direct encoding of their second operand, `Once` the direct encoding of
its operand, and `Historically` the PRIMED encoding of its operand. -/
theorem c5_initial_position_boundary (f g : LTLf) (rest : LTLfList) :
    toMona (.before f) "0" = .ok (some "(false)") ∧
    toMona (.wbefore f) "0" = .ok (some "(true)") ∧
    toMona (.since (.cons f (.cons g rest))) "0" = toMona g "0" ∧
    toMona (.trigger (.cons f (.cons g rest))) "0" = toMona g "0" ∧
    toMona (.once f) "0" = toMona f "0" ∧
    toMona (.hist f) "0" = toMonaS f "0" :=
  ⟨rfl, rfl, rfl, rfl, rfl, rfl⟩

/-- C6, counterexample: the program for the atom `a` starts with the
comment line `#a;`, so it is not just header + `var2` line + body. -/
theorem c6_counterexample :
    monaProgram (.atom "a") = .ok "#a;\nm2l-str;\nvar2 A;\n(0 in A);\n" ∧
    "#a;\nm2l-str;\nvar2 A;\n(0 in A);\n" ≠ "m2l-str;\nvar2 A;\n(0 in A);\n" :=
  ⟨rfl, by decide⟩

/-- C6, amended: `mona_program` emits a comment line `#<formula>;`, then
the header `m2l-str;`, then the `var2` line over the upper-cased free
labels (omitted when there are none), then the body `to_mona("0")`
terminated by `;`. -/
theorem c6_mona_program_layout (f : LTLf) (vs : List String) (b : Option String)
    (hv : progVarsE f = .ok vs) (hb : toMona f "0" = .ok b) :
    monaProgram f = .ok ("#" ++ strF f ++ ";\n" ++ monaHeader ++ ";\n" ++
      (if vs = [] then "" else "var2 " ++ String.intercalate ", " vs ++ ";\n") ++
      fmtPy b ++ ";\n") := by
  simp only [monaProgram, hv, hb, bindOk]
  by_cases h : vs = []
  · subst h
    rw [if_neg (by simp : ¬ (([] : List String) ≠ [])), if_pos rfl]
    exact congrArg Except.ok (strExt (by simp [strDataAppend, List.append_assoc]))
  · rw [if_pos h, if_neg h]
    exact congrArg Except.ok (strExt (by simp [strDataAppend, List.append_assoc]))

/-- C6 witness: the layout theorem applied to the atom `b`. -/
theorem c6_witness :
    monaProgram (.atom "b") = .ok ("#" ++ strF (.atom "b") ++ ";\n" ++ monaHeader ++
      ";\n" ++ (if (["B"] : List String) = [] then ""
        else "var2 " ++ String.intercalate ", " ["B"] ++ ";\n") ++
      fmtPy (some "(0 in B)") ++ ";\n") :=
  c6_mona_program_layout (.atom "b") ["B"] (some "(0 in B)") rfl rfl

/-- C7, counterexample: `LTLfAtomic` overrides the naming grammar with
`[a-z][a-z0-9_]*`, so the word-character name `A` — accepted by the base
grammar `(\w+)|(".*")` the claim states — is rejected with a naming
error. -/
theorem c7_counterexample :
    ltlfAtomicNew "A" = .error .valueError ∧ baseNameOk "A" = true :=
  ⟨rfl, by decide⟩

/-- C7, amended: `LTLfAtomic` construction raises the naming `ValueError`
exactly when the name does not fully match `[a-z][a-z0-9_]*`, and n-ary
operator construction raises the arity `AssertionError` exactly when given
fewer than two children; in the failure cases no formula is produced. -/
theorem c7_construction_validation (s : String) (t : BinTag) (fs : LTLfList) :
    (ltlfAtomicNew s = .error .valueError ↔ ltlfNameOk s = false) ∧
    (ltlfAtomicNew s = .ok (.atom s) ↔ ltlfNameOk s = true) ∧
    (binaryOperatorNew t fs = .error .assertError ↔ lenL fs < 2) ∧
    (binaryOperatorNew t fs = .ok (binOfTag t fs) ↔ 2 ≤ lenL fs) := by
  refine ⟨?_, ?_, ?_, ?_⟩ <;> by_cases h : ltlfNameOk s <;>
    by_cases h2 : 2 ≤ lenL fs <;>
    simp [ltlfAtomicNew, binaryOperatorNew, h, h2] <;> omega

/-- C7 witness: the validation characterization at concrete inputs. -/
theorem c7_witness :
    (ltlfAtomicNew "A" = .error .valueError ↔ ltlfNameOk "A" = false) ∧
    (ltlfAtomicNew "A" = .ok (.atom "A") ↔ ltlfNameOk "A" = true) ∧
    (binaryOperatorNew .andT .nil = .error .assertError ↔ lenL .nil < 2) ∧
    (binaryOperatorNew .andT .nil = .ok (binOfTag .andT .nil) ↔ 2 ≤ lenL .nil) :=
  c7_construction_validation "A" .andT .nil

/-- C10: constructing `MonaProgram`s never disturbs earlier instances.
Whatever the class-level default `cv` currently holds, every constructed
instance reads back exactly the upper-cased free labels of its own formula,
because `_set_vars` assigns the per-instance attribute. -/
theorem c10_instance_vars_isolated (fs : List LTLf) (ps : List MPInst)
    (h : mpBuildAll fs = .ok ps) :
    ps.map MPInst.formula = fs ∧
    ∀ (i : Nat) (hi : i < ps.length) (cv : List String),
      progVarsE ((ps.get ⟨i, hi⟩).formula) = .ok (mpReadVars cv (ps.get ⟨i, hi⟩)) := by
  induction fs generalizing ps with
  | nil =>
    simp only [mpBuildAll] at h
    cases h
    exact ⟨rfl, fun i hi => by simp at hi⟩
  | cons f t ih =>
    simp only [mpBuildAll, mpNew] at h
    cases hv : progVarsE f with
    | error e => rw [hv] at h; exact absurd h (by simp [bindErr])
    | ok vs =>
      rw [hv] at h
      cases ht : mpBuildAll t with
      | error e => rw [ht] at h; exact absurd h (by simp [bindOk, bindErr])
      | ok qs =>
        rw [ht] at h
        simp only [bindOk] at h
        cases h
        obtain ⟨ihm, ihi⟩ := ih qs ht
        refine ⟨by simpa using ihm, ?_⟩
        intro i hi cv
        cases i with
        | zero => simpa [mpReadVars] using hv
        | succ j => exact ihi j (by simpa using hi) cv

/-- C10 witness: two constructions in sequence. -/
theorem c10_witness :
    ([{ formula := LTLf.atom "a", instVars := some ["A"] },
      { formula := LTLf.atom "b", instVars := some ["B"] }] : List MPInst).map
        MPInst.formula = [LTLf.atom "a", LTLf.atom "b"] ∧
    ∀ (i : Nat) (hi : i < ([{ formula := LTLf.atom "a", instVars := some ["A"] },
        { formula := LTLf.atom "b", instVars := some ["B"] }] : List MPInst).length)
      (cv : List String),
      progVarsE ((([{ formula := LTLf.atom "a", instVars := some ["A"] },
        { formula := LTLf.atom "b", instVars := some ["B"] }] : List MPInst).get
          ⟨i, hi⟩).formula) =
        .ok (mpReadVars cv (([{ formula := LTLf.atom "a", instVars := some ["A"] },
          { formula := LTLf.atom "b", instVars := some ["B"] }] : List MPInst).get
            ⟨i, hi⟩)) :=
  c10_instance_vars_isolated [.atom "a", .atom "b"] _ rfl

/-! C9: `negate` is an involution on the NNF-closed fragment. -/

mutual

/-- The fragment of C9: atoms, constants, `Not` directly over a named atom,
and/or, next/weak-next, until/release, with arity at least 2. -/
def wfF9 : LTLf → Bool
  | .atom _ | .tt | .ff => true
  | .lnot (.atom _) => true
  | .land fs | .lor fs | .luntil fs | .lrel fs => (2 ≤ lenL fs) && wfF9L fs
  | .lnext g | .wnext g => wfF9 g
  | _ => false

/-- `wfF9` on every child. -/
def wfF9L : LTLfList → Bool
  | .nil => true
  | .cons h t => wfF9 h && wfF9L t

end

mutual

/-- What `negate` computes on the C9 fragment, as a total structural
function (identity outside the fragment). -/
def negStruct : LTLf → LTLf
  | .atom s => .lnot (.atom s)
  | .tt => .ff
  | .ff => .tt
  | .lnot g => g
  | .land fs => .lor (negStructL fs)
  | .lor fs => .land (negStructL fs)
  | .lnext g => .wnext (negStruct g)
  | .wnext g => .lnext (negStruct g)
  | .luntil fs => .lrel (negStructL fs)
  | .lrel fs => .luntil (negStructL fs)
  | f => f

/-- `negStruct` on every child. -/
def negStructL : LTLfList → LTLfList
  | .nil => .nil
  | .cons h t => .cons (negStruct h) (negStructL t)

end

/-- `negStructL` preserves the child count. -/
theorem lenL_negStructL : ∀ fs, lenL (negStructL fs) = lenL fs
  | .nil => rfl
  | .cons h t => by simp [negStructL, lenL, lenL_negStructL t]

mutual

/-- `negStruct` stays in the C9 fragment. -/
theorem wfF9_negStruct : ∀ f, wfF9 f = true → wfF9 (negStruct f) = true
  | .atom _, _ => rfl
  | .tt, _ => rfl
  | .ff, _ => rfl
  | .lnot g, h => by
    cases g <;> simp [wfF9] at h <;> rfl
  | .land fs, h => by
    simp only [wfF9, Bool.and_eq_true] at h
    simp [negStruct, wfF9, lenL_negStructL, h.1, wfF9L_negStructL fs h.2]
  | .lor fs, h => by
    simp only [wfF9, Bool.and_eq_true] at h
    simp [negStruct, wfF9, lenL_negStructL, h.1, wfF9L_negStructL fs h.2]
  | .luntil fs, h => by
    simp only [wfF9, Bool.and_eq_true] at h
    simp [negStruct, wfF9, lenL_negStructL, h.1, wfF9L_negStructL fs h.2]
  | .lrel fs, h => by
    simp only [wfF9, Bool.and_eq_true] at h
    simp [negStruct, wfF9, lenL_negStructL, h.1, wfF9L_negStructL fs h.2]
  | .lnext g, h => by
    simp only [wfF9] at h
    simp [negStruct, wfF9, wfF9_negStruct g h]
  | .wnext g, h => by
    simp only [wfF9] at h
    simp [negStruct, wfF9, wfF9_negStruct g h]

/-- `negStructL` stays in the C9 fragment. -/
theorem wfF9L_negStructL : ∀ fs, wfF9L fs = true → wfF9L (negStructL fs) = true
  | .nil, _ => rfl
  | .cons h t, hw => by
    simp only [wfF9L, Bool.and_eq_true] at hw
    simp [negStructL, wfF9L, wfF9_negStruct h hw.1, wfF9L_negStructL t hw.2]

end

mutual

/-- On the C9 fragment, `negStruct` is a structural involution. -/
theorem negStruct_invol : ∀ f, wfF9 f = true → negStruct (negStruct f) = f
  | .atom _, _ => rfl
  | .tt, _ => rfl
  | .ff, _ => rfl
  | .lnot g, h => by
    cases g <;> simp [wfF9] at h <;> rfl
  | .land fs, h => by
    simp only [wfF9, Bool.and_eq_true] at h
    simp [negStruct, negStructL_invol fs h.2]
  | .lor fs, h => by
    simp only [wfF9, Bool.and_eq_true] at h
    simp [negStruct, negStructL_invol fs h.2]
  | .luntil fs, h => by
    simp only [wfF9, Bool.and_eq_true] at h
    simp [negStruct, negStructL_invol fs h.2]
  | .lrel fs, h => by
    simp only [wfF9, Bool.and_eq_true] at h
    simp [negStruct, negStructL_invol fs h.2]
  | .lnext g, h => by
    simp only [wfF9] at h
    simp [negStruct, negStruct_invol g h]
  | .wnext g, h => by
    simp only [wfF9] at h
    simp [negStruct, negStruct_invol g h]

/-- Child-list version of the involution. -/
theorem negStructL_invol : ∀ fs, wfF9L fs = true → negStructL (negStructL fs) = fs
  | .nil, _ => rfl
  | .cons h t, hw => by
    simp only [wfF9L, Bool.and_eq_true] at hw
    simp [negStructL, negStruct_invol h hw.1, negStructL_invol t hw.2]

end

/-- On the C9 fragment, `negate` terminates (fuel `wt` suffices) and
computes `negStruct`; joint statement with the child-list version, by
strong induction on fuel. -/
theorem negateF_frag_all : ∀ n : Nat,
    (∀ f, wfF9 f = true → wt f < n → negateF n f = .ok (negStruct f)) ∧
    (∀ fs, wfF9L fs = true → wtL fs < n → negateList n fs = .ok (negStructL fs)) := by
  intro n
  induction n with
  | zero =>
    exact ⟨fun f _ hw => absurd hw (by omega), fun fs _ hw => absurd hw (by omega)⟩
  | succ k ih =>
    constructor
    · intro f hf hw
      cases f with
      | atom s => rfl
      | tt => rfl
      | ff => rfl
      | lnot g => cases g <;> simp [wfF9] at hf <;> rfl
      | land fs =>
        simp only [wfF9, Bool.and_eq_true, decide_eq_true_eq] at hf
        have hl := ih.2 fs hf.2 (by simp only [wt, wtL] at hw ⊢; omega)
        simp only [negateF, hl, bindOk]
        rw [if_pos (by rw [lenL_negStructL]; exact hf.1)]
        simp [negStruct]
      | lor fs =>
        simp only [wfF9, Bool.and_eq_true, decide_eq_true_eq] at hf
        have hl := ih.2 fs hf.2 (by simp only [wt, wtL] at hw ⊢; omega)
        simp only [negateF, hl, bindOk]
        rw [if_pos (by rw [lenL_negStructL]; exact hf.1)]
        simp [negStruct]
      | luntil fs =>
        simp only [wfF9, Bool.and_eq_true, decide_eq_true_eq] at hf
        have hl := ih.2 fs hf.2 (by simp only [wt, wtL] at hw ⊢; omega)
        simp only [negateF, hl, bindOk]
        rw [if_pos (by rw [lenL_negStructL]; exact hf.1)]
        simp [negStruct]
      | lrel fs =>
        simp only [wfF9, Bool.and_eq_true, decide_eq_true_eq] at hf
        have hl := ih.2 fs hf.2 (by simp only [wt, wtL] at hw ⊢; omega)
        simp only [negateF, hl, bindOk]
        rw [if_pos (by rw [lenL_negStructL]; exact hf.1)]
        simp [negStruct]
      | lnext g =>
        simp only [wfF9] at hf
        have hg := ih.1 g hf (by simp only [wt] at hw; omega)
        simp [negateF, hg, bindOk, negStruct]
      | wnext g =>
        simp only [wfF9] at hf
        have hg := ih.1 g hf (by simp only [wt] at hw; omega)
        simp [negateF, hg, bindOk, negStruct]
      | patom s => simp [wfF9] at hf
      | limp fs => simp [wfF9] at hf
      | liff fs => simp [wfF9] at hf
      | ev g => simp [wfF9] at hf
      | alw g => simp [wfF9] at hf
      | llast => simp [wfF9] at hf
      | lend => simp [wfF9] at hf
      | before g => simp [wfF9] at hf
      | wbefore g => simp [wfF9] at hf
      | since fs => simp [wfF9] at hf
      | trigger fs => simp [wfF9] at hf
      | once g => simp [wfF9] at hf
      | hist g => simp [wfF9] at hf
      | init => simp [wfF9] at hf
      | pynone => simp [wfF9] at hf
      | pylist fs => simp [wfF9] at hf
    · intro fs hf hw
      cases fs with
      | nil => rfl
      | cons h t =>
        simp only [wfF9L, Bool.and_eq_true] at hf
        have h1 : wt h < k := by
          simp only [wtL] at hw
          have := Nat.le_max_left (wt h) (wtL t)
          omega
        have h2 : wtL t < k := by
          simp only [wtL] at hw
          have := Nat.le_max_right (wt h) (wtL t)
          omega
        simp [negateList, ih.1 h hf.1 h1, ih.2 t hf.2 h2, bindOk, negStructL]

/-- C9: on formulas built only from named atoms, True, False, And, Or,
Next, WeakNext, Until, Release and Not directly over a named atom,
`negate` completes and `negate(negate(f))` is structurally equal to `f`. -/
theorem c9_negate_involution (f : LTLf) (h : wfF9 f = true) :
    ∃ g, negateF (wt f + 1) f = .ok g ∧ negateF (wt g + 1) g = .ok f := by
  refine ⟨negStruct f, (negateF_frag_all (wt f + 1)).1 f h (by omega), ?_⟩
  have h2 := (negateF_frag_all (wt (negStruct f) + 1)).1 (negStruct f)
    (wfF9_negStruct f h) (by omega)
  rw [negStruct_invol f h] at h2
  exact h2

/-- C9 witness: the involution at `(a U !(b))`. -/
theorem c9_witness :
    wfF9 (.luntil (two (.atom "a") (.lnot (.atom "b")))) = true ∧
    ∃ g, negateF (wt (.luntil (two (.atom "a") (.lnot (.atom "b")))) + 1)
        (.luntil (two (.atom "a") (.lnot (.atom "b")))) = .ok g ∧
      negateF (wt g + 1) g = .ok (.luntil (two (.atom "a") (.lnot (.atom "b")))) :=
  ⟨by decide, c9_negate_involution (.luntil (two (.atom "a") (.lnot (.atom "b")))) (by decide)⟩

/-! C8: fresh-variable naming in one `gen_tlp` call. -/

/-- `Nat.digitChar` of a digit decodes back to the digit. -/
theorem digitChar_decode (m : Nat) (hm : m < 10) :
    (Nat.digitChar m).toNat - 48 = m := by
  have hd : m = 0 ∨ m = 1 ∨ m = 2 ∨ m = 3 ∨ m = 4 ∨ m = 5 ∨ m = 6 ∨ m = 7 ∨
      m = 8 ∨ m = 9 := by omega
  rcases hd with rfl | rfl | rfl | rfl | rfl | rfl | rfl | rfl | rfl | rfl <;> rfl

/-- Reading back the digits produced by `Nat.toDigitsCore`. -/
theorem digitsToNat_toDigitsCore : ∀ (fuel n : Nat) (ds : List Char), n < fuel →
    digitsToNat (Nat.toDigitsCore 10 fuel n ds) =
      ds.foldl (fun acc c => acc * 10 + (c.toNat - 48)) n := by
  intro fuel
  induction fuel with
  | zero => intro n ds h; omega
  | succ k ih =>
    intro n ds h
    simp only [Nat.toDigitsCore]
    by_cases h10 : n / 10 = 0
    · rw [if_pos h10]
      simp only [digitsToNat, List.foldl, digitChar_decode (n % 10) (by omega)]
      congr 1
      omega
    · rw [if_neg h10]
      have hk : n / 10 < k := by omega
      rw [ih (n / 10) (Nat.digitChar (n % 10) :: ds) hk]
      simp only [List.foldl, digitChar_decode (n % 10) (by omega)]
      congr 1
      omega

/-- The decimal rendering of a natural number decodes back to it. -/
theorem digitsToNat_toString (n : Nat) : digitsToNat (toString n).data = n := by
  have h : (toString n).data = Nat.toDigitsCore 10 (n + 1) n [] := rfl
  rw [h, digitsToNat_toDigitsCore (n + 1) n [] (by omega)]
  rfl

/-- `toString` is injective on naturals. -/
theorem natToString_inj {m n : Nat} (h : toString m = toString n) : m = n := by
  rw [← digitsToNat_toString m, ← digitsToNat_toString n, h]

/-- Fresh-variable names are pairwise distinct across counter values. -/
theorem vname_inj {i j : Nat} (h : vname i = vname j) : i = j := by
  apply natToString_inj
  have hd : ('v' :: (toString i).data) = ('v' :: (toString j).data) := by
    have := congrArg String.data h
    simpa [vname, strDataAppend] using this
  apply strExt
  exact List.cons_injective hd

/-- The values held by a memo dict of length `k`, newest first. -/
def varsList : Nat → List LTLf
  | 0 => []
  | i + 1 => .patom (vname i) :: varsList i

/-- The C8 invariant: the memo dict holds exactly the fresh variables
`v0, v1, ...` in allocation order (newest first). -/
def exvOk (l : List (LTLf × LTLf)) : Prop :=
  l.map Prod.snd = varsList l.length

/-- Inverting a successful `Except` bind. -/
theorem bindEqOk {α β : Type} {x : Except PyErr α} {g : α → Except PyErr β} {b : β}
    (h : (x >>= g) = .ok b) : ∃ a, x = .ok a ∧ g a = .ok b := by
  cases x with
  | ok a => exact ⟨a, rfl, h⟩
  | error e => exact Except.noConfusion h

/-- `exvOk` is preserved by every clausification step: memo hits leave the
state alone, and each allocation prepends the next counter value.  Joint
statement for `tlp`, `tlpSeq` and `lkOr`, by induction on fuel. -/
theorem tlp_exvOk : ∀ n : Nat,
    (∀ f s r, exvOk s.exv → tlp n f s = .ok r → exvOk r.2.exv) ∧
    (∀ fs s r, exvOk s.exv → tlpSeq n fs s = .ok r → exvOk r.2.exv) ∧
    (∀ g s r, exvOk s.exv → lkOr n g s = .ok r → exvOk r.2.exv) := by
  intro n
  induction n with
  | zero =>
    exact ⟨fun f s r _ h => Except.noConfusion h, fun fs s r _ h => Except.noConfusion h,
      fun g s r _ h => Except.noConfusion h⟩
  | succ k ih =>
    obtain ⟨ih1, ih2, ih3⟩ := ih
    have hnew : ∀ (f : LTLf) (s : TlpSt), exvOk s.exv →
        exvOk ((f, LTLf.patom (vname s.exv.length)) :: s.exv) := by
      intro f s hs
      simp only [exvOk, List.map_cons, List.length_cons, varsList]
      rw [hs]
    refine ⟨?_, ?_, ?_⟩
    · intro f s r hs h
      cases f <;> simp only [tlp, newVar2] at h
      case atom => cases h; exact hs
      case patom => cases h; exact hs
      case tt => cases h; exact hs
      case ff => cases h; exact hs
      case llast => cases h; exact hs
      case lend => cases h; exact hs
      case before => cases h; exact hs
      case wbefore => cases h; exact hs
      case since => cases h; exact hs
      case trigger => cases h; exact hs
      case once => cases h; exact hs
      case hist => cases h; exact hs
      case init => cases h; exact hs
      case lnot g =>
        split at h
        · cases h; exact hs
        · obtain ⟨r1, hr1, h⟩ := bindEqOk h
          cases h
          exact ih3 _ _ r1 (hnew _ s hs) hr1
      case land fs =>
        split at h
        · cases h; exact hs
        · obtain ⟨r1, hr1, h⟩ := bindEqOk h
          split at h
          · cases h; exact ih2 _ _ r1 (hnew _ s hs) hr1
          · exact Except.noConfusion h
      case lor fs =>
        split at h
        · cases h; exact hs
        · obtain ⟨r1, hr1, h⟩ := bindEqOk h
          split at h
          · cases h; exact ih2 _ _ r1 (hnew _ s hs) hr1
          · exact Except.noConfusion h
      case limp fs =>
        split at h
        · cases h; exact hs
        · split at h
          · exact Except.noConfusion h
          · obtain ⟨r1, hr1, h⟩ := bindEqOk h
            exact Except.noConfusion h
          · obtain ⟨r1, hr1, h⟩ := bindEqOk h
            obtain ⟨r2, hr2, h⟩ := bindEqOk h
            cases h
            exact ih3 _ _ r2 (ih3 _ _ r1 (hnew _ s hs) hr1) hr2
      case liff fs =>
        split at h
        · cases h; exact hs
        · split at h
          · exact Except.noConfusion h
          · obtain ⟨r1, hr1, h⟩ := bindEqOk h
            exact Except.noConfusion h
          · obtain ⟨r1, hr1, h⟩ := bindEqOk h
            obtain ⟨r2, hr2, h⟩ := bindEqOk h
            cases h
            exact ih3 _ _ r2 (ih3 _ _ r1 (hnew _ s hs) hr1) hr2
      case lnext g =>
        split at h
        · cases h; exact hs
        · obtain ⟨r1, hr1, h⟩ := bindEqOk h
          cases h
          exact ih3 _ _ r1 (hnew _ s hs) hr1
      case wnext g =>
        split at h
        · cases h; exact hs
        · obtain ⟨r1, hr1, h⟩ := bindEqOk h
          cases h
          exact ih3 _ _ r1 (hnew _ s hs) hr1
      case luntil fs =>
        split at h
        · cases h; exact hs
        · split at h
          · exact Except.noConfusion h
          · obtain ⟨r1, hr1, h⟩ := bindEqOk h
            exact Except.noConfusion h
          · obtain ⟨r1, hr1, h⟩ := bindEqOk h
            obtain ⟨r2, hr2, h⟩ := bindEqOk h
            obtain ⟨r3, hr3, h⟩ := bindEqOk h
            cases h
            exact ih3 _ _ r3 (ih3 _ _ r2 (ih3 _ _ r1 (hnew _ s hs) hr1) hr2) hr3
      case lrel fs =>
        split at h
        · cases h; exact hs
        · split at h
          · exact Except.noConfusion h
          · obtain ⟨r1, hr1, h⟩ := bindEqOk h
            exact Except.noConfusion h
          · obtain ⟨r1, hr1, h⟩ := bindEqOk h
            obtain ⟨r2, hr2, h⟩ := bindEqOk h
            obtain ⟨r3, hr3, h⟩ := bindEqOk h
            cases h
            exact ih3 _ _ r3 (ih3 _ _ r2 (ih3 _ _ r1 (hnew _ s hs) hr1) hr2) hr3
      case ev g =>
        split at h
        · cases h; exact hs
        · split at h
          · exact Except.noConfusion h
          · obtain ⟨r1, hr1, h⟩ := bindEqOk h
            cases h
            exact ih3 _ _ r1 (hnew _ s hs) hr1
      case alw g =>
        split at h
        · cases h; exact hs
        · obtain ⟨r1, hr1, h⟩ := bindEqOk h
          obtain ⟨r2, hr2, h⟩ := bindEqOk h
          cases h
          exact ih3 _ _ r2 (ih3 _ _ r1 (hnew _ s hs) hr1) hr2
      case pynone => exact Except.noConfusion h
      case pylist => exact Except.noConfusion h
    · intro fs s r hs h
      cases fs with
      | nil => simp only [tlpSeq] at h; cases h; exact hs
      | cons a t =>
        simp only [tlpSeq] at h
        obtain ⟨r1, hr1, h⟩ := bindEqOk h
        obtain ⟨r2, hr2, h⟩ := bindEqOk h
        cases h
        exact ih2 _ _ r2 (ih3 _ _ r1 hs hr1) hr2
    · intro g s r hs h
      simp only [lkOr] at h
      split at h
      · cases h; exact hs
      · exact ih1 _ _ r hs h

/-- Counter values at or beyond the dict length never occur among its
values. -/
theorem not_mem_varsList : ∀ (k i : Nat), k ≤ i → LTLf.patom (vname i) ∉ varsList k := by
  intro k
  induction k with
  | zero => intro i _ hc; simp [varsList] at hc
  | succ m ih =>
    intro i hi hc
    simp only [varsList, List.mem_cons] at hc
    cases hc with
    | inl he =>
      injection he with he2
      have := vname_inj he2
      omega
    | inr hm => exact ih i (by omega) hm

/-- The allocated fresh variables are pairwise distinct. -/
theorem varsList_nodup : ∀ k, (varsList k).Nodup := by
  intro k
  induction k with
  | zero => simp [varsList]
  | succ m ih =>
    simp only [varsList, List.nodup_cons]
    exact ⟨not_mem_varsList m m (by omega), ih⟩

/-- In allocation order the fresh variables are `v0, v1, v2, ...`. -/
theorem varsList_reverse : ∀ k, (varsList k).reverse =
    (List.range k).map (fun i => LTLf.patom (vname i)) := by
  intro k
  induction k with
  | zero => rfl
  | succ m ih =>
    simp only [varsList, List.reverse_cons, ih, List.range_succ, List.map_append,
      List.map_cons, List.map_nil]

/-- C8: in one `gen_tlp` invocation — which always starts from a freshly
allocated empty memo dict, so the counter restarts at zero — the memo holds
exactly the fresh variables `"v" + str(counter)` with the counter strictly
increasing in allocation order, and all allocated names are pairwise
distinct. -/
theorem c8_fresh_variable_names (n : Nat) (f : LTLf) (r : LTLf × TlpSt)
    (h : genTlpSt n f = .ok r) :
    r.2.exv.map Prod.snd = varsList r.2.exv.length ∧
    (r.2.exv.map Prod.snd).reverse =
      (List.range r.2.exv.length).map (fun i => LTLf.patom (vname i)) ∧
    (r.2.exv.map Prod.snd).Nodup := by
  have hx := (tlp_exvOk n).1 f ⟨[], ∅⟩ r rfl h
  simp only [exvOk] at hx
  refine ⟨hx, ?_, ?_⟩
  · rw [hx, varsList_reverse]
  · rw [hx]; exact varsList_nodup _

/-- C8 witness: clausifying `!(a)`. -/
theorem c8_witness :
    ((LTLf.patom "v0",
      (⟨[(LTLf.lnot (LTLf.atom "a"), LTLf.patom "v0")],
        insert (LTLf.alw (.liff (two (.patom "v0") (.lnot (.atom "a"))))) ∅⟩ :
        TlpSt)) : LTLf × TlpSt).2.exv.map Prod.snd =
      varsList ((LTLf.patom "v0",
      (⟨[(LTLf.lnot (LTLf.atom "a"), LTLf.patom "v0")],
        insert (LTLf.alw (.liff (two (.patom "v0") (.lnot (.atom "a"))))) ∅⟩ :
        TlpSt)) : LTLf × TlpSt).2.exv.length ∧
    (((LTLf.patom "v0",
      (⟨[(LTLf.lnot (LTLf.atom "a"), LTLf.patom "v0")],
        insert (LTLf.alw (.liff (two (.patom "v0") (.lnot (.atom "a"))))) ∅⟩ :
        TlpSt)) : LTLf × TlpSt).2.exv.map Prod.snd).reverse =
      (List.range ((LTLf.patom "v0",
      (⟨[(LTLf.lnot (LTLf.atom "a"), LTLf.patom "v0")],
        insert (LTLf.alw (.liff (two (.patom "v0") (.lnot (.atom "a"))))) ∅⟩ :
        TlpSt)) : LTLf × TlpSt).2.exv.length).map (fun i => LTLf.patom (vname i)) ∧
    (((LTLf.patom "v0",
      (⟨[(LTLf.lnot (LTLf.atom "a"), LTLf.patom "v0")],
        insert (LTLf.alw (.liff (two (.patom "v0") (.lnot (.atom "a"))))) ∅⟩ :
        TlpSt)) : LTLf × TlpSt).2.exv.map Prod.snd).Nodup :=
  c8_fresh_variable_names 5 (.lnot (.atom "a")) _ rfl

/-- Supporting C4: on an equal non-empty signature, the functioning
variant `MonaSF` emits the negation of an implication whose antecedent is
the conjunction of the primed-subset constraints and whose consequent
conjoins the direct and the primed biconditional. -/
theorem monaSF_equal_signature_nonempty (f1 f2 : LTLf) (l1 l2 : List String)
    (m1 m2 e1 e2 : Option String)
    (h1 : labelsE f1 = .ok l1) (h2 : labelsE f2 = .ok l2)
    (hsub : (dedupKF (l1.map upperStr)).all (· ∈ dedupKF (l2.map upperStr)) ∧
      (dedupKF (l2.map upperStr)).all (· ∈ dedupKF (l1.map upperStr)))
    (hne : ¬(dedupKF (l1.map upperStr) = [] ∧ dedupKF (l2.map upperStr) = []))
    (hm1 : toMona f1 "0" = .ok m1) (hm2 : toMona f2 "0" = .ok m2)
    (hs1 : toMonaS f1 "0" = .ok e1) (hs2 : toMonaS f2 "0" = .ok e2) :
    monaSF f1 f2 = .ok ("#" ++ strF f1 ++ " <-> " ++ strF f2 ++ " in THTf;\n" ++
      monaHeader ++ ";\nvar2 " ++
      pairJoin (dedupKF (l1.map upperStr ++ l2.map upperStr)) ++ ";\n  ~((" ++
      subJoin (dedupKF (l1.map upperStr ++ l2.map upperStr)) ++ ") => (((" ++
      fmtPy m1 ++ ") <=> (" ++ fmtPy m2 ++ ")) & ((" ++ fmtPy e1 ++ ") <=>(" ++
      fmtPy e2 ++ "))));\n") := by
  simp only [monaSF, h1, h2, bindOk]
  rw [if_pos hsub, if_neg hne]
  simp only [hm1, hm2, hs1, hs2, bindOk]

/-- Supporting C4: on an equal empty signature, `MonaSF` emits the negated
conjunction of the two biconditionals directly and declares no
variables. -/
theorem monaSF_equal_signature_empty (f1 f2 : LTLf) (m1 m2 e1 e2 : Option String)
    (h1 : labelsE f1 = .ok []) (h2 : labelsE f2 = .ok [])
    (hm1 : toMona f1 "0" = .ok m1) (hm2 : toMona f2 "0" = .ok m2)
    (hs1 : toMonaS f1 "0" = .ok e1) (hs2 : toMonaS f2 "0" = .ok e2) :
    monaSF f1 f2 = .ok ("#" ++ strF f1 ++ " <-> " ++ strF f2 ++ " in THTf;\n" ++
      monaHeader ++ ";\n ~(((" ++ fmtPy m1 ++ ") <=> (" ++ fmtPy m2 ++ ")) & ((" ++
      fmtPy e1 ++ ") <=>(" ++ fmtPy e2 ++ ")));\n") := by
  simp only [monaSF, h1, h2, bindOk, List.map_nil, dedupKF, List.foldl_nil]
  rw [if_pos (by simp), if_pos (by simp)]
  simp only [hm1, hm2, hs1, hs2, bindOk]

/-! Helper lemmas for the NNF machine (C2). -/

/-- Every weight is positive. -/
theorem wtPos : ∀ f : LTLf, 1 ≤ wt f := by
  intro f
  cases f <;> simp only [wt] <;> first | omega | (split <;> omega)

/-- Every list weight is positive. -/
theorem wtLPos : ∀ fs : LTLfList, 1 ≤ wtL fs := by
  intro fs
  cases fs <;> simp [wtL]

mutual

/-- The NNF-image fragment is contained in the NNF-supported fragment. -/
theorem easyNeg_wfG : ∀ f, easyNeg f = true → wfG f = true
  | .atom _, _ => rfl
  | .tt, _ => rfl
  | .ff, _ => rfl
  | .lnot g, h => by
    simp only [easyNeg] at h
    simp only [wfG]
    exact easyNeg_wfG g h
  | .land fs, h => by
    simp only [easyNeg, Bool.and_eq_true] at h
    simp only [wfG, Bool.and_eq_true]
    exact ⟨h.1, easyNegL_wfGL fs h.2⟩
  | .lor fs, h => by
    simp only [easyNeg, Bool.and_eq_true] at h
    simp only [wfG, Bool.and_eq_true]
    exact ⟨h.1, easyNegL_wfGL fs h.2⟩
  | .luntil fs, h => by
    simp only [easyNeg, Bool.and_eq_true] at h
    simp only [wfG, Bool.and_eq_true]
    exact ⟨h.1, easyNegL_wfGL fs h.2⟩
  | .lrel fs, h => by
    simp only [easyNeg, Bool.and_eq_true] at h
    simp only [wfG, Bool.and_eq_true]
    exact ⟨h.1, easyNegL_wfGL fs h.2⟩
  | .lnext g, h => by
    simp only [easyNeg] at h
    simp only [wfG]
    exact easyNeg_wfG g h
  | .wnext g, h => by
    simp only [easyNeg] at h
    simp only [wfG]
    exact easyNeg_wfG g h
  | .before g, h => by
    simp only [easyNeg] at h
    simp only [wfG]
    exact easyNeg_wfG g h

/-- List version of `easyNeg_wfG`. -/
theorem easyNegL_wfGL : ∀ fs, easyNegL fs = true → wfGL fs = true
  | .nil, _ => rfl
  | .cons h t, hw => by
    simp only [easyNegL, Bool.and_eq_true] at hw
    simp only [wfGL, Bool.and_eq_true]
    exact ⟨easyNeg_wfG h hw.1, easyNegL_wfGL t hw.2⟩

end

/-- `mapNotL` preserves the child count. -/
theorem lenL_mapNotL : ∀ fs, lenL (mapNotL fs) = lenL fs
  | .nil => rfl
  | .cons h t => by simp [mapNotL, lenL, lenL_mapNotL t]

/-- Negating every child stays in the NNF-supported fragment. -/
theorem wfGL_mapNotL : ∀ fs, wfGL fs = true → wfGL (mapNotL fs) = true
  | .nil, _ => rfl
  | .cons h t, hw => by
    simp only [wfGL, Bool.and_eq_true] at hw
    simp only [mapNotL, wfGL, Bool.and_eq_true]
    exact ⟨hw.1, wfGL_mapNotL t hw.2⟩

/-- Weight bound for negating every child. -/
theorem wtL_mapNotL : ∀ fs, wtL (mapNotL fs) ≤ wtL fs + 3
  | .nil => by simp [mapNotL, wtL]
  | .cons h t => by
    simp only [mapNotL, wtL]
    have h1 : wt (.lnot h) ≤ wt h + 3 := by
      simp only [wt]
      split <;> omega
    have h2 := wtL_mapNotL t
    have h3 := Nat.le_max_left (wt h) (wtL t)
    have h4 := Nat.le_max_right (wt h) (wtL t)
    have h5 : max (wt (LTLf.lnot h)) (wtL (mapNotL t)) ≤ max (wt h) (wtL t) + 3 :=
      Nat.max_le.2 ⟨by omega, by omega⟩
    omega

/-- Two-element child lists have two children. -/
theorem lenL_two (x y : LTLf) : lenL (two x y) = 2 := rfl

/-- Weight of a two-element child list. -/
theorem wtL_two (x y : LTLf) : wtL (two x y) = 1 + max (wt x) (1 + wt y) := by
  simp only [two, wtL]
  rw [Nat.max_eq_left (wtPos y)]

/-- Weight bound for wrapping in `LTLfNot`. -/
theorem wt_lnot_le (g : LTLf) : wt (.lnot g) ≤ wt g + 3 := by
  simp only [wt]
  split <;> omega

/-- The NNF machine: on the supported fragment, `to_nnf` terminates within
fuel `wt`, lands in the structurally-negatable image fragment, satisfies
the no-negation-over-non-atomic postcondition and does not increase the
weight; `negate` terminates with one/two extra fuel and increases the
weight by at most one.  Joint statement for all six functions, by strong
induction on fuel. -/
theorem nnf_machine : ∀ n : Nat,
    (∀ f, wfG f = true → wt f ≤ n →
      ∃ g, toNNF n f = .ok g ∧ easyNeg g = true ∧ noBadNot g = true ∧ wt g ≤ wt f) ∧
    (∀ fs, wfGL fs = true → wtL fs ≤ n →
      ∃ gs, toNNFList n fs = .ok gs ∧ easyNegL gs = true ∧ noBadNotL gs = true ∧
        wtL gs ≤ wtL fs ∧ lenL gs = lenL fs) ∧
    (∀ f, easyNeg f = true → wt f + 1 ≤ n →
      ∃ g, negateF n f = .ok g ∧ easyNeg g = true ∧ wt g ≤ wt f + 1) ∧
    (∀ fs, easyNegL fs = true → wtL fs + 1 ≤ n →
      ∃ gs, negateList n fs = .ok gs ∧ easyNegL gs = true ∧ wtL gs ≤ wtL fs + 1 ∧
        lenL gs = lenL fs) ∧
    (∀ f, wfG f = true → wt f + 2 ≤ n →
      ∃ g, negateF n f = .ok g ∧ wfG g = true ∧ wt g ≤ wt f + 1) ∧
    (∀ fs, wfGL fs = true → wtL fs + 2 ≤ n →
      ∃ gs, negateList n fs = .ok gs ∧ wfGL gs = true ∧ wtL gs ≤ wtL fs + 1 ∧
        lenL gs = lenL fs) ∧
    (∀ fin rest, easyNeg fin = true → noBadNot fin = true → wfGL rest = true →
      wt fin + wtSumL rest + 7 * lenL rest + 1 ≤ n →
      ∃ g, impLoop n fin rest = .ok g ∧ easyNeg g = true ∧ noBadNot g = true ∧
        wt g ≤ wt fin + wtSumL rest + 7 * lenL rest) := by
  intro n
  induction n with
  | zero =>
    refine ⟨fun f _ hw => absurd hw ?_, fun fs _ hw => absurd hw ?_,
      fun f _ hw => absurd hw ?_, fun fs _ hw => absurd hw ?_,
      fun f _ hw => absurd hw ?_, fun fs _ hw => absurd hw ?_,
      fun fin rest _ _ _ hw => absurd hw ?_⟩
    · have := wtPos f; omega
    · have := wtLPos fs; omega
    · omega
    · omega
    · omega
    · omega
    · omega
  | succ k ih =>
    obtain ⟨ihN, ihNL, ihE, ihEL, ihG, ihGL, ihLoop⟩ := ih
    have stepN : ∀ f, wfG f = true → wt f ≤ k + 1 →
        ∃ g, toNNF (k + 1) f = .ok g ∧ easyNeg g = true ∧ noBadNot g = true ∧
          wt g ≤ wt f := by
      intro f hf hw
      cases f with
      | atom s => exact ⟨.atom s, rfl, rfl, rfl, le_refl _⟩
      | patom s => simp [wfG] at hf
      | tt => exact ⟨.tt, rfl, rfl, rfl, le_refl _⟩
      | ff => exact ⟨.ff, rfl, rfl, rfl, le_refl _⟩
      | lnot g =>
        simp only [wfG] at hf
        by_cases ha : isAtomicF g = true
        · refine ⟨.lnot g, ?_, ?_, ?_, le_refl _⟩
          · simp only [toNNF, if_pos ha]
          · cases g <;> simp_all [isAtomicF, easyNeg, wfG]
          · simp only [noBadNot]; exact ha
        · have hwle : wt (.lnot g) = wt g + 3 := by
            simp only [wt, if_neg ha]
          obtain ⟨h1, hh1, hwf1, hw1⟩ := ihG g hf (by omega)
          obtain ⟨g2, hg2, he2, hb2, hw2⟩ := ihN h1 hwf1 (by omega)
          refine ⟨g2, ?_, he2, hb2, by omega⟩
          simp only [toNNF, if_neg ha, hh1, bindOk]
          exact hg2
      | land fs =>
        simp only [wfG, Bool.and_eq_true, decide_eq_true_eq] at hf
        have hwt : wt (.land fs) = wtL fs + 1 := by simp only [wt]
        obtain ⟨gs, hgs, hegs, hbgs, hwgs, hlen⟩ := ihNL fs hf.2 (by omega)
        refine ⟨.land gs, ?_, ?_, ?_, ?_⟩
        · simp only [toNNF, hgs, bindOk]
          rw [if_pos (by rw [hlen]; exact hf.1)]
        · simp only [easyNeg, Bool.and_eq_true, decide_eq_true_eq]
          exact ⟨by omega, hegs⟩
        · simp only [noBadNot]; exact hbgs
        · simp only [wt]; omega
      | lor fs =>
        simp only [wfG, Bool.and_eq_true, decide_eq_true_eq] at hf
        have hwt : wt (.lor fs) = wtL fs + 1 := by simp only [wt]
        obtain ⟨gs, hgs, hegs, hbgs, hwgs, hlen⟩ := ihNL fs hf.2 (by omega)
        refine ⟨.lor gs, ?_, ?_, ?_, ?_⟩
        · simp only [toNNF, hgs, bindOk]
          rw [if_pos (by rw [hlen]; exact hf.1)]
        · simp only [easyNeg, Bool.and_eq_true, decide_eq_true_eq]
          exact ⟨by omega, hegs⟩
        · simp only [noBadNot]; exact hbgs
        · simp only [wt]; omega
      | luntil fs =>
        simp only [wfG, Bool.and_eq_true, decide_eq_true_eq] at hf
        have hwt : wt (.luntil fs) = wtL fs + 1 := by simp only [wt]
        obtain ⟨gs, hgs, hegs, hbgs, hwgs, hlen⟩ := ihNL fs hf.2 (by omega)
        refine ⟨.luntil gs, ?_, ?_, ?_, ?_⟩
        · simp only [toNNF, hgs, bindOk]
          rw [if_pos (by rw [hlen]; exact hf.1)]
        · simp only [easyNeg, Bool.and_eq_true, decide_eq_true_eq]
          exact ⟨by omega, hegs⟩
        · simp only [noBadNot]; exact hbgs
        · simp only [wt]; omega
      | lrel fs =>
        simp only [wfG, Bool.and_eq_true, decide_eq_true_eq] at hf
        have hwt : wt (.lrel fs) = wtL fs + 1 := by simp only [wt]
        obtain ⟨gs, hgs, hegs, hbgs, hwgs, hlen⟩ := ihNL fs hf.2 (by omega)
        refine ⟨.lrel gs, ?_, ?_, ?_, ?_⟩
        · simp only [toNNF, hgs, bindOk]
          rw [if_pos (by rw [hlen]; exact hf.1)]
        · simp only [easyNeg, Bool.and_eq_true, decide_eq_true_eq]
          exact ⟨by omega, hegs⟩
        · simp only [noBadNot]; exact hbgs
        · simp only [wt]; omega
      | limp fs =>
        simp only [wfG, Bool.and_eq_true, decide_eq_true_eq] at hf
        obtain ⟨hlen2, hwfl⟩ := hf
        cases fs with
        | nil => simp only [lenL] at hlen2; omega
        | cons a t =>
          cases t with
          | nil => simp only [lenL] at hlen2; omega
          | cons b rest =>
            simp only [wfGL, Bool.and_eq_true] at hwfl
            obtain ⟨hwa, hwb, hwrest⟩ := hwfl
            have hwt : wt (.limp (.cons a (.cons b rest))) =
                wt a + (wt b + wtSumL rest) + 7 * (1 + (1 + lenL rest)) + 1 := by
              simp only [wt, wtSumL, lenL]
            have hpa := wtPos a
            have hpb := wtPos b
            have hna := wt_lnot_le a
            obtain ⟨x, hx, hex, hbx, hwx⟩ := ihN (.lnot a)
              (by simp only [wfG]; exact hwa) (by omega)
            obtain ⟨y, hy, hey, hby, hwy⟩ := ihN b hwb (by omega)
            have hfin : wt (.lor (two x y)) ≤ wt x + wt y + 3 := by
              have h1 : wt (.lor (two x y)) = wtL (two x y) + 1 := by simp only [wt]
              rw [h1, wtL_two]
              have h2 : max (wt x) (1 + wt y) ≤ wt x + 1 + wt y :=
                Nat.max_le.2 ⟨by omega, by omega⟩
              omega
            obtain ⟨g, hg, heg, hbg, hwg⟩ := ihLoop (.lor (two x y)) rest
              (by simp only [easyNeg, easyNegL, lenL_two, two, Bool.and_eq_true,
                    decide_eq_true_eq, lenL]
                  exact ⟨by omega, hex, hey, trivial⟩)
              (by simp only [noBadNot, noBadNotL, two, Bool.and_eq_true]
                  exact ⟨hbx, hby, trivial⟩)
              hwrest (by omega)
            refine ⟨g, ?_, heg, hbg, by omega⟩
            simp only [toNNF, hx, bindOk, hy]
            exact hg
      | liff fs =>
        simp only [wfG, Bool.and_eq_true, decide_eq_true_eq] at hf
        obtain ⟨hlen2, hwfl⟩ := hf
        have hwt : wt (.liff fs) = wtL fs + 9 := by simp only [wt]
        have hbwf : wfG (.lor (two (.land fs) (.land (mapNotL fs)))) = true := by
          simp only [wfG, two, lenL, Bool.and_eq_true, decide_eq_true_eq, wfGL]
          exact ⟨by omega, ⟨hlen2, hwfl⟩,
            ⟨by rw [lenL_mapNotL]; omega, wfGL_mapNotL fs hwfl⟩, trivial⟩
        have hbwt : wt (.lor (two (.land fs) (.land (mapNotL fs)))) ≤ wtL fs + 7 := by
          have h1 : wt (.lor (two (.land fs) (.land (mapNotL fs)))) =
              wtL (two (.land fs) (.land (mapNotL fs))) + 1 := by simp only [wt]
          have h2 : wt (.land fs) = wtL fs + 1 := by simp only [wt]
          have h3 : wt (.land (mapNotL fs)) = wtL (mapNotL fs) + 1 := by simp only [wt]
          have h4 := wtL_mapNotL fs
          rw [h1, wtL_two, h2, h3]
          have h5 : max (wtL fs + 1) (1 + (wtL (mapNotL fs) + 1)) ≤ wtL fs + 5 :=
            Nat.max_le.2 ⟨by omega, by omega⟩
          omega
        obtain ⟨g, hg, heg, hbg, hwg⟩ := ihN _ hbwf (by omega)
        refine ⟨g, ?_, heg, hbg, by omega⟩
        simp only [toNNF]
        rw [if_pos hlen2]
        exact hg
      | lnext g =>
        simp only [wfG] at hf
        have hwt : wt (.lnext g) = wt g + 1 := by simp only [wt]
        obtain ⟨h1, hh1, he1, hb1, hw1⟩ := ihN g hf (by omega)
        refine ⟨.lnext h1, ?_, ?_, ?_, ?_⟩
        · simp only [toNNF, hh1, bindOk]
        · simp only [easyNeg]; exact he1
        · simp only [noBadNot]; exact hb1
        · simp only [wt]; omega
      | wnext g =>
        simp only [wfG] at hf
        have hwt : wt (.wnext g) = wt g + 1 := by simp only [wt]
        obtain ⟨h1, hh1, he1, hb1, hw1⟩ := ihN g hf (by omega)
        refine ⟨.wnext h1, ?_, ?_, ?_, ?_⟩
        · simp only [toNNF, hh1, bindOk]
        · simp only [easyNeg]; exact he1
        · simp only [noBadNot]; exact hb1
        · simp only [wt]; omega
      | ev g => simp [wfG] at hf
      | alw g =>
        simp only [wfG] at hf
        have hwt : wt (.alw g) = wt g + 4 := by simp only [wt]
        obtain ⟨h1, hh1, he1, hb1, hw1⟩ := ihN g hf (by omega)
        refine ⟨.lrel (two .ff h1), ?_, ?_, ?_, ?_⟩
        · simp only [toNNF, hh1, bindOk]
        · simp only [easyNeg, easyNegL, two, Bool.and_eq_true, decide_eq_true_eq, lenL]
          exact ⟨by omega, trivial, he1, trivial⟩
        · simp only [noBadNot, noBadNotL, two, Bool.and_eq_true]
          exact ⟨trivial, hb1, trivial⟩
        · have hq1 : wt (.lrel (two .ff h1)) = wtL (two .ff h1) + 1 := by simp only [wt]
          rw [hq1, wtL_two]
          have hq2 : wt (.ff : LTLf) = 1 := rfl
          rw [hq2]
          have hq3 : max 1 (1 + wt h1) = 1 + wt h1 := Nat.max_eq_right (by omega)
          rw [hq3]
          omega
      | llast =>
        have hbwf : wfG (.land (two (.wnext .ff) (.lnot .lend))) = true := by decide
        have hbwt : wt (.land (two (.wnext .ff) (.lnot .lend))) = 12 := by decide
        have hwt : wt (.llast : LTLf) = 13 := rfl
        obtain ⟨g, hg, heg, hbg, hwg⟩ := ihN _ hbwf (by omega)
        refine ⟨g, ?_, heg, hbg, by omega⟩
        simp only [toNNF]
        exact hg
      | lend =>
        have hbwf : wfG (.alw .ff) = true := by decide
        have hbwt : wt (.alw .ff) = 5 := by decide
        have hwt : wt (.lend : LTLf) = 6 := rfl
        obtain ⟨g, hg, heg, hbg, hwg⟩ := ihN _ hbwf (by omega)
        refine ⟨g, ?_, heg, hbg, by omega⟩
        simp only [toNNF]
        exact hg
      | before g =>
        simp only [wfG] at hf
        have hwt : wt (.before g) = wt g + 3 := by simp only [wt]
        obtain ⟨h1, hh1, he1, hb1, hw1⟩ := ihN g hf (by omega)
        refine ⟨.before h1, ?_, ?_, ?_, ?_⟩
        · simp only [toNNF, hh1, bindOk]
        · simp only [easyNeg]; exact he1
        · simp only [noBadNot]; exact hb1
        · simp only [wt]; omega
      | wbefore g => simp [wfG] at hf
      | since fs => simp [wfG] at hf
      | trigger fs => simp [wfG] at hf
      | once g => simp [wfG] at hf
      | hist g => simp [wfG] at hf
      | init => simp [wfG] at hf
      | pynone => simp [wfG] at hf
      | pylist fs => simp [wfG] at hf
    have stepNL : ∀ fs, wfGL fs = true → wtL fs ≤ k + 1 →
        ∃ gs, toNNFList (k + 1) fs = .ok gs ∧ easyNegL gs = true ∧
          noBadNotL gs = true ∧ wtL gs ≤ wtL fs ∧ lenL gs = lenL fs := by
      intro fs hf hw
      cases fs with
      | nil => exact ⟨.nil, rfl, rfl, rfl, le_refl _, rfl⟩
      | cons h t =>
        simp only [wfGL, Bool.and_eq_true] at hf
        have hmx1 := Nat.le_max_left (wt h) (wtL t)
        have hmx2 := Nat.le_max_right (wt h) (wtL t)
        have hwc : wtL (.cons h t) = 1 + max (wt h) (wtL t) := by simp only [wtL]
        obtain ⟨h1, hh1, he1, hb1, hw1⟩ := ihN h hf.1 (by omega)
        obtain ⟨t1, ht1, he2, hb2, hw2, hlen⟩ := ihNL t hf.2 (by omega)
        refine ⟨.cons h1 t1, ?_, ?_, ?_, ?_, ?_⟩
        · simp only [toNNFList, hh1, bindOk, ht1]
        · simp only [easyNegL, Bool.and_eq_true]; exact ⟨he1, he2⟩
        · simp only [noBadNotL, Bool.and_eq_true]; exact ⟨hb1, hb2⟩
        · simp only [wtL]
          have := Nat.max_le.2 (⟨le_trans hw1 hmx1, le_trans hw2 hmx2⟩ :
            wt h1 ≤ max (wt h) (wtL t) ∧ wtL t1 ≤ max (wt h) (wtL t))
          omega
        · simp only [lenL]; omega
    have stepE : ∀ f, easyNeg f = true → wt f + 1 ≤ k + 1 →
        ∃ g, negateF (k + 1) f = .ok g ∧ easyNeg g = true ∧ wt g ≤ wt f + 1 := by
      intro f hf hw
      cases f with
      | atom s => exact ⟨.lnot (.atom s), rfl, rfl, by simp [wt, isAtomicF]⟩
      | tt => exact ⟨.ff, rfl, rfl, by simp [wt]⟩
      | ff => exact ⟨.tt, rfl, rfl, by simp [wt]⟩
      | lnot g =>
        simp only [easyNeg] at hf
        refine ⟨g, rfl, hf, ?_⟩
        have := wt_lnot_le g
        have : wt g ≤ wt (.lnot g) := by simp only [wt]; split <;> omega
        omega
      | land fs =>
        simp only [easyNeg, Bool.and_eq_true, decide_eq_true_eq] at hf
        have hwt : wt (.land fs) = wtL fs + 1 := by simp only [wt]
        obtain ⟨gs, hgs, hegs, hwgs, hlen⟩ := ihEL fs hf.2 (by omega)
        refine ⟨.lor gs, ?_, ?_, ?_⟩
        · simp only [negateF, hgs, bindOk]
          rw [if_pos (by rw [hlen]; exact hf.1)]
        · simp only [easyNeg, Bool.and_eq_true, decide_eq_true_eq]
          exact ⟨by omega, hegs⟩
        · simp only [wt]; omega
      | lor fs =>
        simp only [easyNeg, Bool.and_eq_true, decide_eq_true_eq] at hf
        have hwt : wt (.lor fs) = wtL fs + 1 := by simp only [wt]
        obtain ⟨gs, hgs, hegs, hwgs, hlen⟩ := ihEL fs hf.2 (by omega)
        refine ⟨.land gs, ?_, ?_, ?_⟩
        · simp only [negateF, hgs, bindOk]
          rw [if_pos (by rw [hlen]; exact hf.1)]
        · simp only [easyNeg, Bool.and_eq_true, decide_eq_true_eq]
          exact ⟨by omega, hegs⟩
        · simp only [wt]; omega
      | luntil fs =>
        simp only [easyNeg, Bool.and_eq_true, decide_eq_true_eq] at hf
        have hwt : wt (.luntil fs) = wtL fs + 1 := by simp only [wt]
        obtain ⟨gs, hgs, hegs, hwgs, hlen⟩ := ihEL fs hf.2 (by omega)
        refine ⟨.lrel gs, ?_, ?_, ?_⟩
        · simp only [negateF, hgs, bindOk]
          rw [if_pos (by rw [hlen]; exact hf.1)]
        · simp only [easyNeg, Bool.and_eq_true, decide_eq_true_eq]
          exact ⟨by omega, hegs⟩
        · simp only [wt]; omega
      | lrel fs =>
        simp only [easyNeg, Bool.and_eq_true, decide_eq_true_eq] at hf
        have hwt : wt (.lrel fs) = wtL fs + 1 := by simp only [wt]
        obtain ⟨gs, hgs, hegs, hwgs, hlen⟩ := ihEL fs hf.2 (by omega)
        refine ⟨.luntil gs, ?_, ?_, ?_⟩
        · simp only [negateF, hgs, bindOk]
          rw [if_pos (by rw [hlen]; exact hf.1)]
        · simp only [easyNeg, Bool.and_eq_true, decide_eq_true_eq]
          exact ⟨by omega, hegs⟩
        · simp only [wt]; omega
      | lnext g =>
        simp only [easyNeg] at hf
        have hwt : wt (.lnext g) = wt g + 1 := by simp only [wt]
        obtain ⟨h1, hh1, he1, hw1⟩ := ihE g hf (by omega)
        refine ⟨.wnext h1, ?_, ?_, ?_⟩
        · simp only [negateF, hh1, bindOk]
        · simp only [easyNeg]; exact he1
        · simp only [wt]; omega
      | wnext g =>
        simp only [easyNeg] at hf
        have hwt : wt (.wnext g) = wt g + 1 := by simp only [wt]
        obtain ⟨h1, hh1, he1, hw1⟩ := ihE g hf (by omega)
        refine ⟨.lnext h1, ?_, ?_, ?_⟩
        · simp only [negateF, hh1, bindOk]
        · simp only [easyNeg]; exact he1
        · simp only [wt]; omega
      | before g =>
        simp only [easyNeg] at hf
        have hwt : wt (.before g) = wt g + 3 := by simp only [wt]
        obtain ⟨h1, hh1, he1, hw1⟩ := ihE g hf (by omega)
        refine ⟨.lnot h1, ?_, ?_, ?_⟩
        · simp only [negateF, hh1, bindOk]
        · simp only [easyNeg]; exact he1
        · have := wt_lnot_le h1
          omega
      | patom s => simp [easyNeg] at hf
      | limp fs => simp [easyNeg] at hf
      | liff fs => simp [easyNeg] at hf
      | ev g => simp [easyNeg] at hf
      | alw g => simp [easyNeg] at hf
      | llast => simp [easyNeg] at hf
      | lend => simp [easyNeg] at hf
      | wbefore g => simp [easyNeg] at hf
      | since fs => simp [easyNeg] at hf
      | trigger fs => simp [easyNeg] at hf
      | once g => simp [easyNeg] at hf
      | hist g => simp [easyNeg] at hf
      | init => simp [easyNeg] at hf
      | pynone => simp [easyNeg] at hf
      | pylist fs => simp [easyNeg] at hf
    have stepEL : ∀ fs, easyNegL fs = true → wtL fs + 1 ≤ k + 1 →
        ∃ gs, negateList (k + 1) fs = .ok gs ∧ easyNegL gs = true ∧
          wtL gs ≤ wtL fs + 1 ∧ lenL gs = lenL fs := by
      intro fs hf hw
      cases fs with
      | nil => exact ⟨.nil, rfl, rfl, by simp [wtL], rfl⟩
      | cons h t =>
        simp only [easyNegL, Bool.and_eq_true] at hf
        have hmx1 := Nat.le_max_left (wt h) (wtL t)
        have hmx2 := Nat.le_max_right (wt h) (wtL t)
        have hwc : wtL (.cons h t) = 1 + max (wt h) (wtL t) := by simp only [wtL]
        obtain ⟨h1, hh1, he1, hw1⟩ := ihE h hf.1 (by omega)
        obtain ⟨t1, ht1, he2, hw2, hlen⟩ := ihEL t hf.2 (by omega)
        refine ⟨.cons h1 t1, ?_, ?_, ?_, ?_⟩
        · simp only [negateList, hh1, bindOk, ht1]
        · simp only [easyNegL, Bool.and_eq_true]; exact ⟨he1, he2⟩
        · simp only [wtL]
          have := Nat.max_le.2 (⟨by omega, by omega⟩ :
            wt h1 ≤ max (wt h) (wtL t) + 1 ∧ wtL t1 ≤ max (wt h) (wtL t) + 1)
          omega
        · simp only [lenL]; omega
    have stepG : ∀ f, wfG f = true → wt f + 2 ≤ k + 1 →
        ∃ g, negateF (k + 1) f = .ok g ∧ wfG g = true ∧ wt g ≤ wt f + 1 := by
      intro f hf hw
      cases f with
      | atom s => exact ⟨.lnot (.atom s), rfl, rfl, by simp [wt, isAtomicF]⟩
      | patom s => simp [wfG] at hf
      | tt => exact ⟨.ff, rfl, rfl, by simp [wt]⟩
      | ff => exact ⟨.tt, rfl, rfl, by simp [wt]⟩
      | lnot g =>
        simp only [wfG] at hf
        refine ⟨g, rfl, hf, ?_⟩
        have : wt g ≤ wt (.lnot g) := by simp only [wt]; split <;> omega
        omega
      | land fs =>
        simp only [wfG, Bool.and_eq_true, decide_eq_true_eq] at hf
        have hwt : wt (.land fs) = wtL fs + 1 := by simp only [wt]
        obtain ⟨gs, hgs, hwgs, hwtg, hlen⟩ := ihGL fs hf.2 (by omega)
        refine ⟨.lor gs, ?_, ?_, ?_⟩
        · simp only [negateF, hgs, bindOk]
          rw [if_pos (by rw [hlen]; exact hf.1)]
        · simp only [wfG, Bool.and_eq_true, decide_eq_true_eq]
          exact ⟨by omega, hwgs⟩
        · simp only [wt]; omega
      | lor fs =>
        simp only [wfG, Bool.and_eq_true, decide_eq_true_eq] at hf
        have hwt : wt (.lor fs) = wtL fs + 1 := by simp only [wt]
        obtain ⟨gs, hgs, hwgs, hwtg, hlen⟩ := ihGL fs hf.2 (by omega)
        refine ⟨.land gs, ?_, ?_, ?_⟩
        · simp only [negateF, hgs, bindOk]
          rw [if_pos (by rw [hlen]; exact hf.1)]
        · simp only [wfG, Bool.and_eq_true, decide_eq_true_eq]
          exact ⟨by omega, hwgs⟩
        · simp only [wt]; omega
      | luntil fs =>
        simp only [wfG, Bool.and_eq_true, decide_eq_true_eq] at hf
        have hwt : wt (.luntil fs) = wtL fs + 1 := by simp only [wt]
        obtain ⟨gs, hgs, hwgs, hwtg, hlen⟩ := ihGL fs hf.2 (by omega)
        refine ⟨.lrel gs, ?_, ?_, ?_⟩
        · simp only [negateF, hgs, bindOk]
          rw [if_pos (by rw [hlen]; exact hf.1)]
        · simp only [wfG, Bool.and_eq_true, decide_eq_true_eq]
          exact ⟨by omega, hwgs⟩
        · simp only [wt]; omega
      | lrel fs =>
        simp only [wfG, Bool.and_eq_true, decide_eq_true_eq] at hf
        have hwt : wt (.lrel fs) = wtL fs + 1 := by simp only [wt]
        obtain ⟨gs, hgs, hwgs, hwtg, hlen⟩ := ihGL fs hf.2 (by omega)
        refine ⟨.luntil gs, ?_, ?_, ?_⟩
        · simp only [negateF, hgs, bindOk]
          rw [if_pos (by rw [hlen]; exact hf.1)]
        · simp only [wfG, Bool.and_eq_true, decide_eq_true_eq]
          exact ⟨by omega, hwgs⟩
        · simp only [wt]; omega
      | limp fs =>
        obtain ⟨p, hp, hep, _, hwp⟩ := ihN (.limp fs) hf (by omega)
        obtain ⟨g, hg, heg, hwg⟩ := ihE p hep (by omega)
        refine ⟨g, ?_, easyNeg_wfG g heg, by omega⟩
        simp only [negateF, hp, bindOk]
        exact hg
      | liff fs =>
        obtain ⟨p, hp, hep, _, hwp⟩ := ihN (.liff fs) hf (by omega)
        obtain ⟨g, hg, heg, hwg⟩ := ihE p hep (by omega)
        refine ⟨g, ?_, easyNeg_wfG g heg, by omega⟩
        simp only [negateF, hp, bindOk]
        exact hg
      | lnext g =>
        simp only [wfG] at hf
        have hwt : wt (.lnext g) = wt g + 1 := by simp only [wt]
        obtain ⟨h1, hh1, hw1, hwt1⟩ := ihG g hf (by omega)
        refine ⟨.wnext h1, ?_, ?_, ?_⟩
        · simp only [negateF, hh1, bindOk]
        · simp only [wfG]; exact hw1
        · simp only [wt]; omega
      | wnext g =>
        simp only [wfG] at hf
        have hwt : wt (.wnext g) = wt g + 1 := by simp only [wt]
        obtain ⟨h1, hh1, hw1, hwt1⟩ := ihG g hf (by omega)
        refine ⟨.lnext h1, ?_, ?_, ?_⟩
        · simp only [negateF, hh1, bindOk]
        · simp only [wfG]; exact hw1
        · simp only [wt]; omega
      | ev g => simp [wfG] at hf
      | alw g =>
        obtain ⟨p, hp, hep, _, hwp⟩ := ihN (.alw g) hf (by omega)
        obtain ⟨g2, hg2, heg2, hwg2⟩ := ihE p hep (by omega)
        refine ⟨g2, ?_, easyNeg_wfG g2 heg2, by omega⟩
        simp only [negateF, hp, bindOk]
        exact hg2
      | llast =>
        obtain ⟨p, hp, hep, _, hwp⟩ := ihN .llast hf (by omega)
        obtain ⟨g2, hg2, heg2, hwg2⟩ := ihE p hep (by omega)
        refine ⟨g2, ?_, easyNeg_wfG g2 heg2, by omega⟩
        simp only [negateF, hp, bindOk]
        exact hg2
      | lend =>
        obtain ⟨p, hp, hep, _, hwp⟩ := ihN .lend hf (by omega)
        obtain ⟨g2, hg2, heg2, hwg2⟩ := ihE p hep (by omega)
        refine ⟨g2, ?_, easyNeg_wfG g2 heg2, by omega⟩
        simp only [negateF, hp, bindOk]
        exact hg2
      | before g =>
        simp only [wfG] at hf
        have hwt : wt (.before g) = wt g + 3 := by simp only [wt]
        obtain ⟨h1, hh1, hw1, hwt1⟩ := ihG g hf (by omega)
        refine ⟨.lnot h1, ?_, ?_, ?_⟩
        · simp only [negateF, hh1, bindOk]
        · simp only [wfG]; exact hw1
        · have := wt_lnot_le h1
          omega
      | wbefore g => simp [wfG] at hf
      | since fs => simp [wfG] at hf
      | trigger fs => simp [wfG] at hf
      | once g => simp [wfG] at hf
      | hist g => simp [wfG] at hf
      | init => simp [wfG] at hf
      | pynone => simp [wfG] at hf
      | pylist fs => simp [wfG] at hf
    have stepGL : ∀ fs, wfGL fs = true → wtL fs + 2 ≤ k + 1 →
        ∃ gs, negateList (k + 1) fs = .ok gs ∧ wfGL gs = true ∧
          wtL gs ≤ wtL fs + 1 ∧ lenL gs = lenL fs := by
      intro fs hf hw
      cases fs with
      | nil => exact ⟨.nil, rfl, rfl, by simp [wtL], rfl⟩
      | cons h t =>
        simp only [wfGL, Bool.and_eq_true] at hf
        have hmx1 := Nat.le_max_left (wt h) (wtL t)
        have hmx2 := Nat.le_max_right (wt h) (wtL t)
        have hwc : wtL (.cons h t) = 1 + max (wt h) (wtL t) := by simp only [wtL]
        obtain ⟨h1, hh1, hw1, hwt1⟩ := ihG h hf.1 (by omega)
        obtain ⟨t1, ht1, hw2, hwt2, hlen⟩ := ihGL t hf.2 (by omega)
        refine ⟨.cons h1 t1, ?_, ?_, ?_, ?_⟩
        · simp only [negateList, hh1, bindOk, ht1]
        · simp only [wfGL, Bool.and_eq_true]; exact ⟨hw1, hw2⟩
        · simp only [wtL]
          have := Nat.max_le.2 (⟨by omega, by omega⟩ :
            wt h1 ≤ max (wt h) (wtL t) + 1 ∧ wtL t1 ≤ max (wt h) (wtL t) + 1)
          omega
        · simp only [lenL]; omega
    have stepLoop : ∀ fin rest, easyNeg fin = true → noBadNot fin = true →
        wfGL rest = true → wt fin + wtSumL rest + 7 * lenL rest + 1 ≤ k + 1 →
        ∃ g, impLoop (k + 1) fin rest = .ok g ∧ easyNeg g = true ∧
          noBadNot g = true ∧ wt g ≤ wt fin + wtSumL rest + 7 * lenL rest := by
      intro fin rest hef hbf hwr hfuel
      cases rest with
      | nil =>
        refine ⟨fin, rfl, hef, hbf, ?_⟩
        simp only [wtSumL, lenL]
        omega
      | cons h t =>
        simp only [wfGL, Bool.and_eq_true] at hwr
        simp only [wtSumL, lenL] at hfuel
        have hph := wtPos h
        have hnle := wt_lnot_le fin
        obtain ⟨x, hx, hex, hbx, hwx⟩ := ihN (.lnot fin)
          (by simp only [wfG]; exact easyNeg_wfG fin hef) (by omega)
        obtain ⟨y, hy, hey, hby, hwy⟩ := ihN h hwr.1 (by omega)
        have hfin2 : wt (.lor (two x y)) ≤ wt x + wt y + 3 := by
          have h1 : wt (.lor (two x y)) = wtL (two x y) + 1 := by simp only [wt]
          rw [h1, wtL_two]
          have h2 : max (wt x) (1 + wt y) ≤ wt x + 1 + wt y :=
            Nat.max_le.2 ⟨by omega, by omega⟩
          omega
        obtain ⟨g, hg, heg, hbg, hwg⟩ := ihLoop (.lor (two x y)) t
          (by simp only [easyNeg, easyNegL, two, Bool.and_eq_true,
                decide_eq_true_eq, lenL]
              exact ⟨by omega, hex, hey, trivial⟩)
          (by simp only [noBadNot, noBadNotL, two, Bool.and_eq_true]
              exact ⟨hbx, hby, trivial⟩)
          hwr.2 (by omega)
        refine ⟨g, ?_, heg, hbg, ?_⟩
        · simp only [impLoop, hx, bindOk, hy]
          exact hg
        · simp only [wtSumL, lenL]
          omega
    exact ⟨stepN, stepNL, stepE, stepEL, stepG, stepGL, stepLoop⟩

/-- C2 (amended): for every formula built from atoms, True/False, Not, And,
Or, Implies, Equivalence, Next, WeakNext, Until, Release, Always, Last, End
and Before (n-ary operators applied to at least two children), `to_nnf`
terminates normally and its result contains no negation applied to a
non-atomic subformula. -/
theorem c2_to_nnf_no_bad_not (f : LTLf) (h : wfG f = true) :
    ∃ g, toNNF (wt f) f = .ok g ∧ noBadNot g = true := by
  obtain ⟨g, hg, _, hb, _⟩ := (nnf_machine (wt f)).1 f h (le_refl _)
  exact ⟨g, hg, hb⟩

/-- Witness for C2: a concrete implication whose antecedent is negated and
whose consequent is an Always over a negated conjunction. -/
theorem c2_witness :
    wfG (LTLf.limp (two (.atom "a")
      (.alw (.lnot (.land (two (.atom "a") (.atom "b"))))))) = true ∧
    ∃ g, toNNF (wt (LTLf.limp (two (.atom "a")
        (.alw (.lnot (.land (two (.atom "a") (.atom "b"))))))))
        (LTLf.limp (two (.atom "a")
          (.alw (.lnot (.land (two (.atom "a") (.atom "b"))))))) = .ok g ∧
      noBadNot g = true :=
  ⟨by decide, c2_to_nnf_no_bad_not _ (by decide)⟩

/-! Toolkit for the C3 sharing-bound analysis of `gen_tlp`. -/

mutual

/-- Node count of a formula tree. -/
def sz : LTLf → Nat
  | .atom _ => 1
  | .patom _ => 1
  | .tt => 1
  | .ff => 1
  | .lnot g => 1 + sz g
  | .land fs => 1 + szL fs
  | .lor fs => 1 + szL fs
  | .limp fs => 1 + szL fs
  | .liff fs => 1 + szL fs
  | .lnext g => 1 + sz g
  | .wnext g => 1 + sz g
  | .luntil fs => 1 + szL fs
  | .lrel fs => 1 + szL fs
  | .ev g => 1 + sz g
  | .alw g => 1 + sz g
  | .llast => 1
  | .lend => 1
  | .before g => 1 + sz g
  | .wbefore g => 1 + sz g
  | .since fs => 1 + szL fs
  | .trigger fs => 1 + szL fs
  | .once g => 1 + sz g
  | .hist g => 1 + sz g
  | .init => 1
  | .pynone => 1
  | .pylist fs => 1 + szL fs

/-- Node count of a child list. -/
def szL : LTLfList → Nat
  | .nil => 0
  | .cons h t => sz h + szL t

end

/-- The operators whose `_to_tlp` allocates a fresh variable and memoizes
the formula (everything except atoms, the boolean constants,
`LTLfLast`/`LTLfEnd`, the past operators, `LTLfInit`, and the raw Python
values). -/
def isProper : LTLf → Bool
  | .lnot _ | .land _ | .lor _ | .limp _ | .liff _ | .lnext _ | .wnext _
  | .luntil _ | .lrel _ | .ev _ | .alw _ => true
  | _ => false

/-- Every formula has at least one node. -/
theorem szPos (f : LTLf) : 1 ≤ sz f := by
  cases f <;> simp only [sz] <;> omega

/-- Replicated child lists have proportional size. -/
theorem szL_replicate (g : LTLf) : ∀ k, szL (replicateL k g) = k * sz g := by
  intro k
  induction k with
  | zero => simp [replicateL, szL]
  | succ i ih => simp only [replicateL, szL, ih]; ring

/-- Formulas of different sizes are distinct. -/
theorem ne_of_sz_lt {a b : LTLf} (h : sz a < sz b) : a ≠ b :=
  fun he => absurd (congrArg sz he) (Nat.ne_of_lt h)

/-- Dict lookup distributes over append. -/
theorem lookup_app (y : LTLf) : ∀ (a b : List (LTLf × LTLf)),
    lookupExv y (a ++ b) =
      match lookupExv y a with
      | some w => some w
      | none => lookupExv y b := by
  intro a b
  induction a with
  | nil => simp [lookupExv]
  | cons hd tl ih =>
    obtain ⟨k, w⟩ := hd
    by_cases hy : y = k
    · simp [lookupExv, hy]
    · simp only [List.cons_append, lookupExv, if_neg hy]
      exact ih

/-- A lookup misses exactly when the key is absent from the dict. -/
theorem lookup_none_iff (y : LTLf) : ∀ l : List (LTLf × LTLf),
    lookupExv y l = none ↔ y ∉ l.map Prod.fst := by
  intro l
  induction l with
  | nil => simp [lookupExv]
  | cons hd tl ih =>
    obtain ⟨k, w⟩ := hd
    simp only [lookupExv, List.map_cons, List.mem_cons]
    by_cases hy : y = k
    · simp [hy]
    · simp [hy, ih]

/-- Two dicts differing only in one never-looked-up trailing key agree on
every other key. -/
theorem lookup_sides (y p q v : LTLf) (A : List (LTLf × LTLf))
    (hp : y ≠ p) (hq : y ≠ q) :
    lookupExv y (A ++ [(p, v)]) = lookupExv y (A ++ [(q, v)]) := by
  rw [lookup_app, lookup_app]
  cases lookupExv y A with
  | some w => rfl
  | none => simp [lookupExv, hp, hq]

/-- A key absent from the newer entries is found at its memoized value. -/
theorem lookup_skip (x w : LTLf) : ∀ (new rest : List (LTLf × LTLf)),
    x ∉ new.map Prod.fst →
    lookupExv x (new ++ (x, w) :: rest) = some w := by
  intro new rest hx
  rw [lookup_app]
  rw [(lookup_none_iff x new).mpr hx]
  simp [lookupExv]

/-- The shape of every constraint `_to_tlp` adds to `df`: an `LTLfAlways`
over a biconditional defining a fresh variable of counter at least `L`, or
one of the two `Last`-implication constraints of `LTLfNext`/`LTLfWeakNext`. -/
def dfShape (L : Nat) (c : LTLf) : Prop :=
  ∃ i, L ≤ i ∧
    ((∃ x, c = .alw (.liff (two (.patom (vname i)) x))) ∨
      c = .alw (.limp (two .llast (.patom (vname i)))) ∨
      c = .alw (.limp (two .llast (.lnot (.patom (vname i))))))

/-- Constraint shapes for a later counter also qualify for an earlier one. -/
theorem dfShape_mono {L L' : Nat} {c : LTLf} (h : L' ≤ L) :
    dfShape L c → dfShape L' c :=
  fun ⟨i, hi, hsh⟩ => ⟨i, le_trans h hi, hsh⟩

/-- The clausifier's state evolution invariant: the memo dict grows by
prepending, key distinctness is preserved, and every new constraint has the
`dfShape` of a counter at least the starting dict length. -/
def StInv (s t : TlpSt) : Prop :=
  (∃ new, t.exv = new ++ s.exv) ∧
  ((s.exv.map Prod.fst).Nodup → (t.exv.map Prod.fst).Nodup) ∧
  (∀ c ∈ t.df, c ∈ s.df ∨ dfShape s.exv.length c)

theorem StInv_refl (s : TlpSt) : StInv s s :=
  ⟨⟨[], rfl⟩, id, fun _ hc => Or.inl hc⟩

/-- The dict length is monotone along the invariant. -/
theorem StInv_len {s t : TlpSt} (h : StInv s t) : s.exv.length ≤ t.exv.length := by
  obtain ⟨⟨new, hnew⟩, _, _⟩ := h
  rw [hnew]
  simp

theorem StInv_trans {s t u : TlpSt} (h1 : StInv s t) (h2 : StInv t u) : StInv s u := by
  have hlen := StInv_len h1
  obtain ⟨⟨n1, he1⟩, hd1, hdf1⟩ := h1
  obtain ⟨⟨n2, he2⟩, hd2, hdf2⟩ := h2
  refine ⟨⟨n2 ++ n1, by rw [he2, he1, List.append_assoc]⟩, fun h => hd2 (hd1 h), ?_⟩
  intro c hc
  cases hdf2 c hc with
  | inl ht => exact hdf1 c ht
  | inr hsh => exact Or.inr (dfShape_mono hlen hsh)

/-- Adding a well-shaped constraint preserves the invariant. -/
theorem StInv_addDf {s t : TlpSt} {c : LTLf} (h : StInv s t)
    (hc : dfShape s.exv.length c) : StInv s (addDf t c) := by
  obtain ⟨he, hd, hdf⟩ := h
  refine ⟨he, hd, ?_⟩
  intro c' hc'
  simp only [addDf, Finset.mem_insert] at hc'
  cases hc' with
  | inl h' => exact Or.inr (h' ▸ hc)
  | inr h' => exact hdf c' h'

/-- Allocating a fresh variable for an unmemoized formula preserves the
invariant. -/
theorem StInv_alloc (x : LTLf) (s : TlpSt) (hx : lookupExv x s.exv = none) :
    StInv s ⟨(x, .patom (vname s.exv.length)) :: s.exv, s.df⟩ := by
  refine ⟨⟨[(x, .patom (vname s.exv.length))], rfl⟩, ?_, fun _ hc => Or.inl hc⟩
  intro hnd
  simp only [List.map_cons, List.nodup_cons]
  exact ⟨(lookup_none_iff x s.exv).mp hx, hnd⟩

/-- Every successful clausification step satisfies `StInv`, and a proper
operator that was not already memoized ends up memoized to exactly the
variable it returns.  Joint statement for `tlp`, `tlpSeq` and `lkOr`, by
induction on fuel. -/
theorem tlpInv : ∀ n : Nat,
    (∀ x s w t, tlp n x s = .ok (w, t) → StInv s t ∧
      (isProper x = true → lookupExv x s.exv = none →
        ∃ new, t.exv = new ++ (x, w) :: s.exv)) ∧
    (∀ xs s ws t, tlpSeq n xs s = .ok (ws, t) → StInv s t) ∧
    (∀ x s w t, lkOr n x s = .ok (w, t) → StInv s t) := by
  intro n
  induction n with
  | zero =>
    exact ⟨fun x s w t h => Except.noConfusion h,
      fun xs s ws t h => Except.noConfusion h,
      fun x s w t h => Except.noConfusion h⟩
  | succ k ih =>
    obtain ⟨ih1, ih2, ih3⟩ := ih
    refine ⟨?_, ?_, ?_⟩
    · intro x s w t h
      cases x <;> simp only [tlp, newVar2] at h
      case atom a => cases h; exact ⟨StInv_refl s, fun hp _ => by simp [isProper] at hp⟩
      case patom a => cases h; exact ⟨StInv_refl s, fun hp _ => by simp [isProper] at hp⟩
      case tt => cases h; exact ⟨StInv_refl s, fun hp _ => by simp [isProper] at hp⟩
      case ff => cases h; exact ⟨StInv_refl s, fun hp _ => by simp [isProper] at hp⟩
      case llast => cases h; exact ⟨StInv_refl s, fun hp _ => by simp [isProper] at hp⟩
      case lend => cases h; exact ⟨StInv_refl s, fun hp _ => by simp [isProper] at hp⟩
      case before g => cases h; exact ⟨StInv_refl s, fun hp _ => by simp [isProper] at hp⟩
      case wbefore g => cases h; exact ⟨StInv_refl s, fun hp _ => by simp [isProper] at hp⟩
      case since fs => cases h; exact ⟨StInv_refl s, fun hp _ => by simp [isProper] at hp⟩
      case trigger fs => cases h; exact ⟨StInv_refl s, fun hp _ => by simp [isProper] at hp⟩
      case once g => cases h; exact ⟨StInv_refl s, fun hp _ => by simp [isProper] at hp⟩
      case hist g => cases h; exact ⟨StInv_refl s, fun hp _ => by simp [isProper] at hp⟩
      case init => cases h; exact ⟨StInv_refl s, fun hp _ => by simp [isProper] at hp⟩
      case pynone => exact Except.noConfusion h
      case pylist fs => exact Except.noConfusion h
      case lnot g =>
        split at h
        · rename_i w' hl
          cases h
          exact ⟨StInv_refl s,
            fun _ hnone => by rw [hl] at hnone; exact Option.noConfusion hnone⟩
        · rename_i hl
          obtain ⟨r1, hr1, h⟩ := bindEqOk h
          cases h
          have hs1 := StInv_alloc (.lnot g) s hl
          have hi1 := ih3 _ _ r1.1 r1.2 hr1
          refine ⟨StInv_addDf (StInv_trans hs1 hi1)
            ⟨s.exv.length, le_refl _, Or.inl ⟨_, rfl⟩⟩, ?_⟩
          intro _ _
          obtain ⟨new, hnew⟩ := hi1.1
          exact ⟨new, hnew⟩
      case land fs =>
        split at h
        · rename_i w' hl
          cases h
          exact ⟨StInv_refl s,
            fun _ hnone => by rw [hl] at hnone; exact Option.noConfusion hnone⟩
        · rename_i hl
          obtain ⟨r1, hr1, h⟩ := bindEqOk h
          split at h
          · cases h
            have hs1 := StInv_alloc (.land fs) s hl
            have hi1 := ih2 _ _ r1.1 r1.2 hr1
            refine ⟨StInv_addDf (StInv_trans hs1 hi1)
              ⟨s.exv.length, le_refl _, Or.inl ⟨_, rfl⟩⟩, ?_⟩
            intro _ _
            obtain ⟨new, hnew⟩ := hi1.1
            exact ⟨new, hnew⟩
          · exact Except.noConfusion h
      case lor fs =>
        split at h
        · rename_i w' hl
          cases h
          exact ⟨StInv_refl s,
            fun _ hnone => by rw [hl] at hnone; exact Option.noConfusion hnone⟩
        · rename_i hl
          obtain ⟨r1, hr1, h⟩ := bindEqOk h
          split at h
          · cases h
            have hs1 := StInv_alloc (.lor fs) s hl
            have hi1 := ih2 _ _ r1.1 r1.2 hr1
            refine ⟨StInv_addDf (StInv_trans hs1 hi1)
              ⟨s.exv.length, le_refl _, Or.inl ⟨_, rfl⟩⟩, ?_⟩
            intro _ _
            obtain ⟨new, hnew⟩ := hi1.1
            exact ⟨new, hnew⟩
          · exact Except.noConfusion h
      case limp fs =>
        split at h
        · rename_i w' hl
          cases h
          exact ⟨StInv_refl s,
            fun _ hnone => by rw [hl] at hnone; exact Option.noConfusion hnone⟩
        · rename_i hl
          split at h
          · exact Except.noConfusion h
          · obtain ⟨r1, hr1, h⟩ := bindEqOk h
            exact Except.noConfusion h
          · obtain ⟨r1, hr1, h⟩ := bindEqOk h
            obtain ⟨r2, hr2, h⟩ := bindEqOk h
            cases h
            have hs1 := StInv_alloc _ s hl
            have hi1 := ih3 _ _ r1.1 r1.2 hr1
            have hi2 := ih3 _ _ r2.1 r2.2 hr2
            refine ⟨StInv_addDf (StInv_trans (StInv_trans hs1 hi1) hi2)
              ⟨s.exv.length, le_refl _, Or.inl ⟨_, rfl⟩⟩, ?_⟩
            intro _ _
            obtain ⟨n1, hn1⟩ := hi1.1
            obtain ⟨n2, hn2⟩ := hi2.1
            exact ⟨n2 ++ n1, by simp only [addDf, hn2, hn1, List.append_assoc]⟩
      case liff fs =>
        split at h
        · rename_i w' hl
          cases h
          exact ⟨StInv_refl s,
            fun _ hnone => by rw [hl] at hnone; exact Option.noConfusion hnone⟩
        · rename_i hl
          split at h
          · exact Except.noConfusion h
          · obtain ⟨r1, hr1, h⟩ := bindEqOk h
            exact Except.noConfusion h
          · obtain ⟨r1, hr1, h⟩ := bindEqOk h
            obtain ⟨r2, hr2, h⟩ := bindEqOk h
            cases h
            have hs1 := StInv_alloc _ s hl
            have hi1 := ih3 _ _ r1.1 r1.2 hr1
            have hi2 := ih3 _ _ r2.1 r2.2 hr2
            refine ⟨StInv_addDf (StInv_trans (StInv_trans hs1 hi1) hi2)
              ⟨s.exv.length, le_refl _, Or.inl ⟨_, rfl⟩⟩, ?_⟩
            intro _ _
            obtain ⟨n1, hn1⟩ := hi1.1
            obtain ⟨n2, hn2⟩ := hi2.1
            exact ⟨n2 ++ n1, by simp only [addDf, hn2, hn1, List.append_assoc]⟩
      case lnext g =>
        split at h
        · rename_i w' hl
          cases h
          exact ⟨StInv_refl s,
            fun _ hnone => by rw [hl] at hnone; exact Option.noConfusion hnone⟩
        · rename_i hl
          obtain ⟨r1, hr1, h⟩ := bindEqOk h
          cases h
          have hs1 := StInv_alloc (.lnext g) s hl
          have hi1 := ih3 _ _ r1.1 r1.2 hr1
          refine ⟨StInv_addDf (StInv_addDf (StInv_trans hs1 hi1)
              ⟨s.exv.length, le_refl _, Or.inl ⟨_, rfl⟩⟩)
            ⟨s.exv.length, le_refl _, Or.inr (Or.inr rfl)⟩, ?_⟩
          intro _ _
          obtain ⟨new, hnew⟩ := hi1.1
          exact ⟨new, hnew⟩
      case wnext g =>
        split at h
        · rename_i w' hl
          cases h
          exact ⟨StInv_refl s,
            fun _ hnone => by rw [hl] at hnone; exact Option.noConfusion hnone⟩
        · rename_i hl
          obtain ⟨r1, hr1, h⟩ := bindEqOk h
          cases h
          have hs1 := StInv_alloc (.wnext g) s hl
          have hi1 := ih3 _ _ r1.1 r1.2 hr1
          refine ⟨StInv_addDf (StInv_addDf (StInv_trans hs1 hi1)
              ⟨s.exv.length, le_refl _, Or.inl ⟨_, rfl⟩⟩)
            ⟨s.exv.length, le_refl _, Or.inr (Or.inl rfl)⟩, ?_⟩
          intro _ _
          obtain ⟨new, hnew⟩ := hi1.1
          exact ⟨new, hnew⟩
      case luntil fs =>
        split at h
        · rename_i w' hl
          cases h
          exact ⟨StInv_refl s,
            fun _ hnone => by rw [hl] at hnone; exact Option.noConfusion hnone⟩
        · rename_i hl
          split at h
          · exact Except.noConfusion h
          · obtain ⟨r1, hr1, h⟩ := bindEqOk h
            exact Except.noConfusion h
          · obtain ⟨r1, hr1, h⟩ := bindEqOk h
            obtain ⟨r2, hr2, h⟩ := bindEqOk h
            obtain ⟨r3, hr3, h⟩ := bindEqOk h
            cases h
            have hs1 := StInv_alloc _ s hl
            have hi1 := ih3 _ _ r1.1 r1.2 hr1
            have hi2 := ih3 _ _ r2.1 r2.2 hr2
            have hi3 := ih3 _ _ r3.1 r3.2 hr3
            refine ⟨StInv_addDf
              (StInv_trans (StInv_trans (StInv_trans hs1 hi1) hi2) hi3)
              ⟨s.exv.length, le_refl _, Or.inl ⟨_, rfl⟩⟩, ?_⟩
            intro _ _
            obtain ⟨n1, hn1⟩ := hi1.1
            obtain ⟨n2, hn2⟩ := hi2.1
            obtain ⟨n3, hn3⟩ := hi3.1
            exact ⟨n3 ++ n2 ++ n1,
              by simp only [addDf, hn3, hn2, hn1, List.append_assoc]⟩
      case lrel fs =>
        split at h
        · rename_i w' hl
          cases h
          exact ⟨StInv_refl s,
            fun _ hnone => by rw [hl] at hnone; exact Option.noConfusion hnone⟩
        · rename_i hl
          split at h
          · exact Except.noConfusion h
          · obtain ⟨r1, hr1, h⟩ := bindEqOk h
            exact Except.noConfusion h
          · obtain ⟨r1, hr1, h⟩ := bindEqOk h
            obtain ⟨r2, hr2, h⟩ := bindEqOk h
            obtain ⟨r3, hr3, h⟩ := bindEqOk h
            cases h
            have hs1 := StInv_alloc _ s hl
            have hi1 := ih3 _ _ r1.1 r1.2 hr1
            have hi2 := ih3 _ _ r2.1 r2.2 hr2
            have hi3 := ih3 _ _ r3.1 r3.2 hr3
            refine ⟨StInv_addDf
              (StInv_trans (StInv_trans (StInv_trans hs1 hi1) hi2) hi3)
              ⟨s.exv.length, le_refl _, Or.inl ⟨_, rfl⟩⟩, ?_⟩
            intro _ _
            obtain ⟨n1, hn1⟩ := hi1.1
            obtain ⟨n2, hn2⟩ := hi2.1
            obtain ⟨n3, hn3⟩ := hi3.1
            exact ⟨n3 ++ n2 ++ n1,
              by simp only [addDf, hn3, hn2, hn1, List.append_assoc]⟩
      case ev g =>
        split at h
        · rename_i w' hl
          cases h
          exact ⟨StInv_refl s,
            fun _ hnone => by rw [hl] at hnone; exact Option.noConfusion hnone⟩
        · rename_i hl
          split at h
          · exact Except.noConfusion h
          · rename_i f1 hg
            obtain ⟨r1, hr1, h⟩ := bindEqOk h
            cases h
            have hs1 := StInv_alloc (.ev g) s hl
            have hi1 := ih3 _ _ r1.1 r1.2 hr1
            refine ⟨StInv_addDf (StInv_trans hs1 hi1)
              ⟨s.exv.length, le_refl _, Or.inl ⟨_, rfl⟩⟩, ?_⟩
            intro _ _
            obtain ⟨new, hnew⟩ := hi1.1
            exact ⟨new, hnew⟩
      case alw g =>
        split at h
        · rename_i w' hl
          cases h
          exact ⟨StInv_refl s,
            fun _ hnone => by rw [hl] at hnone; exact Option.noConfusion hnone⟩
        · rename_i hl
          obtain ⟨r1, hr1, h⟩ := bindEqOk h
          obtain ⟨r2, hr2, h⟩ := bindEqOk h
          cases h
          have hs1 := StInv_alloc (.alw g) s hl
          have hi1 := ih3 _ _ r1.1 r1.2 hr1
          have hi2 := ih3 _ _ r2.1 r2.2 hr2
          refine ⟨StInv_addDf (StInv_trans (StInv_trans hs1 hi1) hi2)
            ⟨s.exv.length, le_refl _, Or.inl ⟨_, rfl⟩⟩, ?_⟩
          intro _ _
          obtain ⟨n1, hn1⟩ := hi1.1
          obtain ⟨n2, hn2⟩ := hi2.1
          exact ⟨n2 ++ n1, by simp only [addDf, hn2, hn1, List.append_assoc]⟩
    · intro xs s ws t h
      cases xs with
      | nil => simp only [tlpSeq] at h; cases h; exact StInv_refl s
      | cons a tl =>
        simp only [tlpSeq] at h
        obtain ⟨r1, hr1, h⟩ := bindEqOk h
        obtain ⟨r2, hr2, h⟩ := bindEqOk h
        cases h
        exact StInv_trans (ih3 _ _ r1.1 r1.2 hr1) (ih2 _ _ r2.1 r2.2 hr2)
    · intro x s w t h
      simp only [lkOr] at h
      split at h
      · cases h; exact StInv_refl s
      · exact (ih1 _ _ w t h).1

/-- Fuel monotonicity: a successful clausification still succeeds, with the
same result, when given one more unit of fuel.  Joint statement for `tlp`,
`tlpSeq` and `lkOr`. -/
theorem tlpMono : ∀ n : Nat,
    (∀ x s r, tlp n x s = .ok r → tlp (n + 1) x s = .ok r) ∧
    (∀ xs s r, tlpSeq n xs s = .ok r → tlpSeq (n + 1) xs s = .ok r) ∧
    (∀ x s r, lkOr n x s = .ok r → lkOr (n + 1) x s = .ok r) := by
  intro n
  induction n with
  | zero =>
    exact ⟨fun x s r h => Except.noConfusion h,
      fun xs s r h => Except.noConfusion h,
      fun x s r h => Except.noConfusion h⟩
  | succ k ih =>
    obtain ⟨ih1, ih2, ih3⟩ := ih
    refine ⟨?_, ?_, ?_⟩
    · intro x s r h
      cases x <;> simp only [tlp, newVar2] at h ⊢
      case atom a => exact h
      case patom a => exact h
      case tt => exact h
      case ff => exact h
      case llast => exact h
      case lend => exact h
      case before g => exact h
      case wbefore g => exact h
      case since fs => exact h
      case trigger fs => exact h
      case once g => exact h
      case hist g => exact h
      case init => exact h
      case pynone => exact Except.noConfusion h
      case pylist fs => exact Except.noConfusion h
      case lnot g =>
        split at h
        · exact h
        · obtain ⟨r1, hr1, h⟩ := bindEqOk h
          simp only [ih3 _ _ _ hr1, bindOk]
          exact h
      case land fs =>
        split at h
        · exact h
        · obtain ⟨r1, hr1, h⟩ := bindEqOk h
          simp only [ih2 _ _ _ hr1, bindOk]
          exact h
      case lor fs =>
        split at h
        · exact h
        · obtain ⟨r1, hr1, h⟩ := bindEqOk h
          simp only [ih2 _ _ _ hr1, bindOk]
          exact h
      case limp fs =>
        split at h
        · exact h
        · split at h
          · exact Except.noConfusion h
          · obtain ⟨r1, hr1, h⟩ := bindEqOk h
            exact Except.noConfusion h
          · obtain ⟨r1, hr1, h⟩ := bindEqOk h
            obtain ⟨r2, hr2, h⟩ := bindEqOk h
            simp only [ih3 _ _ _ hr1, ih3 _ _ _ hr2, bindOk]
            exact h
      case liff fs =>
        split at h
        · exact h
        · split at h
          · exact Except.noConfusion h
          · obtain ⟨r1, hr1, h⟩ := bindEqOk h
            exact Except.noConfusion h
          · obtain ⟨r1, hr1, h⟩ := bindEqOk h
            obtain ⟨r2, hr2, h⟩ := bindEqOk h
            simp only [ih3 _ _ _ hr1, ih3 _ _ _ hr2, bindOk]
            exact h
      case lnext g =>
        split at h
        · exact h
        · obtain ⟨r1, hr1, h⟩ := bindEqOk h
          simp only [ih3 _ _ _ hr1, bindOk]
          exact h
      case wnext g =>
        split at h
        · exact h
        · obtain ⟨r1, hr1, h⟩ := bindEqOk h
          simp only [ih3 _ _ _ hr1, bindOk]
          exact h
      case luntil fs =>
        split at h
        · exact h
        · split at h
          · exact Except.noConfusion h
          · obtain ⟨r1, hr1, h⟩ := bindEqOk h
            exact Except.noConfusion h
          · obtain ⟨r1, hr1, h⟩ := bindEqOk h
            obtain ⟨r2, hr2, h⟩ := bindEqOk h
            obtain ⟨r3, hr3, h⟩ := bindEqOk h
            simp only [ih3 _ _ _ hr1, ih3 _ _ _ hr2, ih3 _ _ _ hr3, bindOk]
            exact h
      case lrel fs =>
        split at h
        · exact h
        · split at h
          · exact Except.noConfusion h
          · obtain ⟨r1, hr1, h⟩ := bindEqOk h
            exact Except.noConfusion h
          · obtain ⟨r1, hr1, h⟩ := bindEqOk h
            obtain ⟨r2, hr2, h⟩ := bindEqOk h
            obtain ⟨r3, hr3, h⟩ := bindEqOk h
            simp only [ih3 _ _ _ hr1, ih3 _ _ _ hr2, ih3 _ _ _ hr3, bindOk]
            exact h
      case ev g =>
        split at h
        · exact h
        · split at h
          · exact Except.noConfusion h
          · obtain ⟨r1, hr1, h⟩ := bindEqOk h
            simp only [ih3 _ _ _ hr1, bindOk]
            exact h
      case alw g =>
        split at h
        · exact h
        · obtain ⟨r1, hr1, h⟩ := bindEqOk h
          obtain ⟨r2, hr2, h⟩ := bindEqOk h
          simp only [ih3 _ _ _ hr1, ih3 _ _ _ hr2, bindOk]
          exact h
    · intro xs s r h
      cases xs with
      | nil => simp only [tlpSeq] at h ⊢; exact h
      | cons a tl =>
        simp only [tlpSeq] at h
        obtain ⟨r1, hr1, h⟩ := bindEqOk h
        obtain ⟨r2, hr2, h⟩ := bindEqOk h
        show (do
          let rr ← lkOr (k + 1) a s
          let rs ← tlpSeq (k + 1) tl rr.2
          Except.ok (LTLfList.cons rr.1 rs.1, rs.2)) = Except.ok r
        simp only [ih3 _ _ _ hr1, ih2 _ _ _ hr2, bindOk]
        exact h
    · intro x s r h
      simp only [lkOr] at h ⊢
      split at h
      · exact h
      · exact ih1 _ _ _ h

/-- A successful `lkOr` keeps succeeding, with the same result, at any
larger fuel. -/
theorem lkOr_le {m n : Nat} {g : LTLf} {s : TlpSt} {r : LTLf × TlpSt}
    (h : lkOr m g s = .ok r) (hmn : m ≤ n) : lkOr n g s = .ok r := by
  induction n, hmn using Nat.le_induction with
  | base => exact h
  | succ n hn ih => exact (tlpMono n).2.2 _ _ _ ih

/-- Key-swap simulation: the clausifier's behavior depends on the memo
dict's oldest entry only through lookups of its key, and a key strictly
larger than every formula the run can look up (the argument itself, its
subformulas, and their `Next`/`WeakNext` wrappings, all of size at most
`sz x + 1`) is never consulted.  Swapping that oldest key for another
equally-large one therefore yields the same result value, the same new
memo entries and the same constraint set.  Joint statement for `tlp`,
`tlpSeq`, `lkOr`, and `lkOr` applied to the wrapped keys, by strong
induction on fuel. -/
theorem tlpSim : ∀ (n : Nat) (p q v : LTLf),
    (∀ x A df w t, sz x + 1 < sz p → sz x + 1 < sz q →
      tlp n x ⟨A ++ [(p, v)], df⟩ = .ok (w, t) →
      ∃ A2, t.exv = A2 ++ [(p, v)] ∧
        tlp n x ⟨A ++ [(q, v)], df⟩ = .ok (w, ⟨A2 ++ [(q, v)], t.df⟩)) ∧
    (∀ xs A df ws t, szL xs + 1 < sz p → szL xs + 1 < sz q →
      tlpSeq n xs ⟨A ++ [(p, v)], df⟩ = .ok (ws, t) →
      ∃ A2, t.exv = A2 ++ [(p, v)] ∧
        tlpSeq n xs ⟨A ++ [(q, v)], df⟩ = .ok (ws, ⟨A2 ++ [(q, v)], t.df⟩)) ∧
    (∀ x A df w t, sz x + 1 < sz p → sz x + 1 < sz q →
      lkOr n x ⟨A ++ [(p, v)], df⟩ = .ok (w, t) →
      ∃ A2, t.exv = A2 ++ [(p, v)] ∧
        lkOr n x ⟨A ++ [(q, v)], df⟩ = .ok (w, ⟨A2 ++ [(q, v)], t.df⟩)) ∧
    (∀ x A df w t, sz x + 1 < sz p → sz x + 1 < sz q →
      lkOr n (.lnext x) ⟨A ++ [(p, v)], df⟩ = .ok (w, t) →
      ∃ A2, t.exv = A2 ++ [(p, v)] ∧
        lkOr n (.lnext x) ⟨A ++ [(q, v)], df⟩ = .ok (w, ⟨A2 ++ [(q, v)], t.df⟩)) ∧
    (∀ x A df w t, sz x + 1 < sz p → sz x + 1 < sz q →
      lkOr n (.wnext x) ⟨A ++ [(p, v)], df⟩ = .ok (w, t) →
      ∃ A2, t.exv = A2 ++ [(p, v)] ∧
        lkOr n (.wnext x) ⟨A ++ [(q, v)], df⟩ = .ok (w, ⟨A2 ++ [(q, v)], t.df⟩)) := by
  intro n
  induction n using Nat.strong_induction_on with
  | _ n ih =>
  intro p q v
  refine ⟨?_, ?_, ?_, ?_, ?_⟩
  · intro x A df w t h1 h2 h
    cases n with
    | zero => exact Except.noConfusion h
    | succ m =>
      obtain ⟨ihT, ihS, ihL, ihWN, ihWW⟩ := ih m (by omega) p q v
      have hlen : (A ++ [(q, v)]).length = (A ++ [(p, v)]).length := by simp
      cases x <;> simp only [tlp, newVar2] at h ⊢
      case atom a => cases h; exact ⟨A, rfl, rfl⟩
      case patom a => cases h; exact ⟨A, rfl, rfl⟩
      case tt => cases h; exact ⟨A, rfl, rfl⟩
      case ff => cases h; exact ⟨A, rfl, rfl⟩
      case llast => cases h; exact ⟨A, rfl, rfl⟩
      case lend => cases h; exact ⟨A, rfl, rfl⟩
      case before g => cases h; exact ⟨A, rfl, rfl⟩
      case wbefore g => cases h; exact ⟨A, rfl, rfl⟩
      case since fs => cases h; exact ⟨A, rfl, rfl⟩
      case trigger fs => cases h; exact ⟨A, rfl, rfl⟩
      case once g => cases h; exact ⟨A, rfl, rfl⟩
      case hist g => cases h; exact ⟨A, rfl, rfl⟩
      case init => cases h; exact ⟨A, rfl, rfl⟩
      case pynone => exact Except.noConfusion h
      case pylist fs => exact Except.noConfusion h
      case lnot g =>
        have hxp : LTLf.lnot g ≠ p := ne_of_sz_lt (by omega)
        have hxq : LTLf.lnot g ≠ q := ne_of_sz_lt (by omega)
        have hlook := lookup_sides (.lnot g) p q v A hxp hxq
        split at h
        · rename_i w' hl
          cases h
          refine ⟨A, rfl, ?_⟩
          simp only [← hlook, hl]
          try rfl
        · rename_i hl
          obtain ⟨r1, hr1, h⟩ := bindEqOk h
          cases h
          obtain ⟨A2, hA2, hq1⟩ := ihL g
            ((LTLf.lnot g, LTLf.patom (vname (A ++ [(p, v)]).length)) :: A) df r1.1 r1.2
            (by simp only [sz] at h1; omega) (by simp only [sz] at h2; omega) hr1
          refine ⟨A2, hA2, ?_⟩
          simp only [← hlook, hl]
          rw [hlen]
          simp only [← List.cons_append]
          simp only [hq1, bindOk]
          try rfl
      case land fs =>
        have hxp : LTLf.land fs ≠ p := ne_of_sz_lt (by omega)
        have hxq : LTLf.land fs ≠ q := ne_of_sz_lt (by omega)
        have hlook := lookup_sides (.land fs) p q v A hxp hxq
        split at h
        · rename_i w' hl
          cases h
          refine ⟨A, rfl, ?_⟩
          simp only [← hlook, hl]
          try rfl
        · rename_i hl
          obtain ⟨r1, hr1, h⟩ := bindEqOk h
          split at h
          · rename_i hcond
            cases h
            obtain ⟨A2, hA2, hq1⟩ := ihS fs
              ((LTLf.land fs, LTLf.patom (vname (A ++ [(p, v)]).length)) :: A) df r1.1 r1.2
              (by simp only [sz] at h1; omega) (by simp only [sz] at h2; omega) hr1
            refine ⟨A2, hA2, ?_⟩
            simp only [← hlook, hl]
            rw [hlen]
            simp only [← List.cons_append]
            simp only [hq1, bindOk]
            rw [if_pos hcond]
            try rfl
          · exact Except.noConfusion h
      case lor fs =>
        have hxp : LTLf.lor fs ≠ p := ne_of_sz_lt (by omega)
        have hxq : LTLf.lor fs ≠ q := ne_of_sz_lt (by omega)
        have hlook := lookup_sides (.lor fs) p q v A hxp hxq
        split at h
        · rename_i w' hl
          cases h
          refine ⟨A, rfl, ?_⟩
          simp only [← hlook, hl]
          try rfl
        · rename_i hl
          obtain ⟨r1, hr1, h⟩ := bindEqOk h
          split at h
          · rename_i hcond
            cases h
            obtain ⟨A2, hA2, hq1⟩ := ihS fs
              ((LTLf.lor fs, LTLf.patom (vname (A ++ [(p, v)]).length)) :: A) df r1.1 r1.2
              (by simp only [sz] at h1; omega) (by simp only [sz] at h2; omega) hr1
            refine ⟨A2, hA2, ?_⟩
            simp only [← hlook, hl]
            rw [hlen]
            simp only [← List.cons_append]
            simp only [hq1, bindOk]
            rw [if_pos hcond]
            try rfl
          · exact Except.noConfusion h
      case limp fs =>
        have hxp : LTLf.limp fs ≠ p := ne_of_sz_lt (by omega)
        have hxq : LTLf.limp fs ≠ q := ne_of_sz_lt (by omega)
        have hlook := lookup_sides (.limp fs) p q v A hxp hxq
        split at h
        · rename_i w' hl
          cases h
          refine ⟨A, rfl, ?_⟩
          simp only [← hlook, hl]
          try rfl
        · rename_i hl
          split at h
          · exact Except.noConfusion h
          · obtain ⟨r1, hr1, h⟩ := bindEqOk h
            exact Except.noConfusion h
          · rename_i a b rest
            obtain ⟨r1, hr1, h⟩ := bindEqOk h
            obtain ⟨r2, hr2, h⟩ := bindEqOk h
            cases h
            obtain ⟨A2, hA2, hq1⟩ := ihL a
              ((LTLf.limp (.cons a (.cons b rest)),
                LTLf.patom (vname (A ++ [(p, v)]).length)) :: A) df r1.1 r1.2
              (by have := szPos b; simp only [sz, szL] at h1; omega)
              (by have := szPos b; simp only [sz, szL] at h2; omega) hr1
            have hr2' : lkOr m b ⟨A2 ++ [(p, v)], r1.2.df⟩ = .ok (r2.1, r2.2) := by
              rw [← hA2]
              exact hr2
            obtain ⟨A3, hA3, hq2⟩ := ihL b A2 r1.2.df r2.1 r2.2
              (by have := szPos a; simp only [sz, szL] at h1; omega)
              (by have := szPos a; simp only [sz, szL] at h2; omega) hr2'
            refine ⟨A3, hA3, ?_⟩
            simp only [← hlook, hl]
            rw [hlen]
            simp only [← List.cons_append]
            simp only [hq1, hq2, bindOk]
            try rfl
      case liff fs =>
        have hxp : LTLf.liff fs ≠ p := ne_of_sz_lt (by omega)
        have hxq : LTLf.liff fs ≠ q := ne_of_sz_lt (by omega)
        have hlook := lookup_sides (.liff fs) p q v A hxp hxq
        split at h
        · rename_i w' hl
          cases h
          refine ⟨A, rfl, ?_⟩
          simp only [← hlook, hl]
          try rfl
        · rename_i hl
          split at h
          · exact Except.noConfusion h
          · obtain ⟨r1, hr1, h⟩ := bindEqOk h
            exact Except.noConfusion h
          · rename_i a b rest
            obtain ⟨r1, hr1, h⟩ := bindEqOk h
            obtain ⟨r2, hr2, h⟩ := bindEqOk h
            cases h
            obtain ⟨A2, hA2, hq1⟩ := ihL a
              ((LTLf.liff (.cons a (.cons b rest)),
                LTLf.patom (vname (A ++ [(p, v)]).length)) :: A) df r1.1 r1.2
              (by have := szPos b; simp only [sz, szL] at h1; omega)
              (by have := szPos b; simp only [sz, szL] at h2; omega) hr1
            have hr2' : lkOr m b ⟨A2 ++ [(p, v)], r1.2.df⟩ = .ok (r2.1, r2.2) := by
              rw [← hA2]
              exact hr2
            obtain ⟨A3, hA3, hq2⟩ := ihL b A2 r1.2.df r2.1 r2.2
              (by have := szPos a; simp only [sz, szL] at h1; omega)
              (by have := szPos a; simp only [sz, szL] at h2; omega) hr2'
            refine ⟨A3, hA3, ?_⟩
            simp only [← hlook, hl]
            rw [hlen]
            simp only [← List.cons_append]
            simp only [hq1, hq2, bindOk]
            try rfl
      case lnext g =>
        have hxp : LTLf.lnext g ≠ p := ne_of_sz_lt (by omega)
        have hxq : LTLf.lnext g ≠ q := ne_of_sz_lt (by omega)
        have hlook := lookup_sides (.lnext g) p q v A hxp hxq
        split at h
        · rename_i w' hl
          cases h
          refine ⟨A, rfl, ?_⟩
          simp only [← hlook, hl]
          try rfl
        · rename_i hl
          obtain ⟨r1, hr1, h⟩ := bindEqOk h
          cases h
          obtain ⟨A2, hA2, hq1⟩ := ihL g
            ((LTLf.lnext g, LTLf.patom (vname (A ++ [(p, v)]).length)) :: A) df r1.1 r1.2
            (by simp only [sz] at h1; omega) (by simp only [sz] at h2; omega) hr1
          refine ⟨A2, hA2, ?_⟩
          simp only [← hlook, hl]
          rw [hlen]
          simp only [← List.cons_append]
          simp only [hq1, bindOk]
          try rfl
      case wnext g =>
        have hxp : LTLf.wnext g ≠ p := ne_of_sz_lt (by omega)
        have hxq : LTLf.wnext g ≠ q := ne_of_sz_lt (by omega)
        have hlook := lookup_sides (.wnext g) p q v A hxp hxq
        split at h
        · rename_i w' hl
          cases h
          refine ⟨A, rfl, ?_⟩
          simp only [← hlook, hl]
          try rfl
        · rename_i hl
          obtain ⟨r1, hr1, h⟩ := bindEqOk h
          cases h
          obtain ⟨A2, hA2, hq1⟩ := ihL g
            ((LTLf.wnext g, LTLf.patom (vname (A ++ [(p, v)]).length)) :: A) df r1.1 r1.2
            (by simp only [sz] at h1; omega) (by simp only [sz] at h2; omega) hr1
          refine ⟨A2, hA2, ?_⟩
          simp only [← hlook, hl]
          rw [hlen]
          simp only [← List.cons_append]
          simp only [hq1, bindOk]
          try rfl
      case luntil fs =>
        have hxp : LTLf.luntil fs ≠ p := ne_of_sz_lt (by omega)
        have hxq : LTLf.luntil fs ≠ q := ne_of_sz_lt (by omega)
        have hlook := lookup_sides (.luntil fs) p q v A hxp hxq
        split at h
        · rename_i w' hl
          cases h
          refine ⟨A, rfl, ?_⟩
          simp only [← hlook, hl]
          try rfl
        · rename_i hl
          split at h
          · exact Except.noConfusion h
          · obtain ⟨r1, hr1, h⟩ := bindEqOk h
            exact Except.noConfusion h
          · rename_i a b rest
            obtain ⟨r1, hr1, h⟩ := bindEqOk h
            obtain ⟨r2, hr2, h⟩ := bindEqOk h
            obtain ⟨r3, hr3, h⟩ := bindEqOk h
            cases h
            obtain ⟨A2, hA2, hq1⟩ := ihL a
              ((LTLf.luntil (.cons a (.cons b rest)),
                LTLf.patom (vname (A ++ [(p, v)]).length)) :: A) df r1.1 r1.2
              (by have := szPos b; simp only [sz, szL] at h1; omega)
              (by have := szPos b; simp only [sz, szL] at h2; omega) hr1
            have hr2' : lkOr m b ⟨A2 ++ [(p, v)], r1.2.df⟩ = .ok (r2.1, r2.2) := by
              rw [← hA2]
              exact hr2
            obtain ⟨A3, hA3, hq2⟩ := ihL b A2 r1.2.df r2.1 r2.2
              (by have := szPos a; simp only [sz, szL] at h1; omega)
              (by have := szPos a; simp only [sz, szL] at h2; omega) hr2'
            have hr3' : lkOr m (.lnext (.luntil (.cons a (.cons b rest))))
                ⟨A3 ++ [(p, v)], r2.2.df⟩ = .ok (r3.1, r3.2) := by
              rw [← hA3]
              exact hr3
            obtain ⟨A4, hA4, hq3⟩ := ihWN (.luntil (.cons a (.cons b rest))) A3
              r2.2.df r3.1 r3.2 h1 h2 hr3'
            refine ⟨A4, hA4, ?_⟩
            simp only [← hlook, hl]
            rw [hlen]
            simp only [← List.cons_append]
            simp only [hq1, hq2, hq3, bindOk]
            try rfl
      case lrel fs =>
        have hxp : LTLf.lrel fs ≠ p := ne_of_sz_lt (by omega)
        have hxq : LTLf.lrel fs ≠ q := ne_of_sz_lt (by omega)
        have hlook := lookup_sides (.lrel fs) p q v A hxp hxq
        split at h
        · rename_i w' hl
          cases h
          refine ⟨A, rfl, ?_⟩
          simp only [← hlook, hl]
          try rfl
        · rename_i hl
          split at h
          · exact Except.noConfusion h
          · obtain ⟨r1, hr1, h⟩ := bindEqOk h
            exact Except.noConfusion h
          · rename_i a b rest
            obtain ⟨r1, hr1, h⟩ := bindEqOk h
            obtain ⟨r2, hr2, h⟩ := bindEqOk h
            obtain ⟨r3, hr3, h⟩ := bindEqOk h
            cases h
            obtain ⟨A2, hA2, hq1⟩ := ihL a
              ((LTLf.lrel (.cons a (.cons b rest)),
                LTLf.patom (vname (A ++ [(p, v)]).length)) :: A) df r1.1 r1.2
              (by have := szPos b; simp only [sz, szL] at h1; omega)
              (by have := szPos b; simp only [sz, szL] at h2; omega) hr1
            have hr2' : lkOr m b ⟨A2 ++ [(p, v)], r1.2.df⟩ = .ok (r2.1, r2.2) := by
              rw [← hA2]
              exact hr2
            obtain ⟨A3, hA3, hq2⟩ := ihL b A2 r1.2.df r2.1 r2.2
              (by have := szPos a; simp only [sz, szL] at h1; omega)
              (by have := szPos a; simp only [sz, szL] at h2; omega) hr2'
            have hr3' : lkOr m (.wnext (.lrel (.cons a (.cons b rest))))
                ⟨A3 ++ [(p, v)], r2.2.df⟩ = .ok (r3.1, r3.2) := by
              rw [← hA3]
              exact hr3
            obtain ⟨A4, hA4, hq3⟩ := ihWW (.lrel (.cons a (.cons b rest))) A3
              r2.2.df r3.1 r3.2 h1 h2 hr3'
            refine ⟨A4, hA4, ?_⟩
            simp only [← hlook, hl]
            rw [hlen]
            simp only [← List.cons_append]
            simp only [hq1, hq2, hq3, bindOk]
            try rfl
      case ev g =>
        have hxp : LTLf.ev g ≠ p := ne_of_sz_lt (by omega)
        have hxq : LTLf.ev g ≠ q := ne_of_sz_lt (by omega)
        have hlook := lookup_sides (.ev g) p q v A hxp hxq
        split at h
        · rename_i w' hl
          cases h
          refine ⟨A, rfl, ?_⟩
          simp only [← hlook, hl]
          try rfl
        · rename_i hl
          split at h
          · exact Except.noConfusion h
          · rename_i f1 hg
            obtain ⟨r1, hr1, h⟩ := bindEqOk h
            cases h
            have hgp : g ≠ p := ne_of_sz_lt (by simp only [sz] at h1; omega)
            have hgq : g ≠ q := ne_of_sz_lt (by simp only [sz] at h2; omega)
            have hlook2 := lookup_sides g p q v
              ((LTLf.ev g, LTLf.patom (vname (A ++ [(p, v)]).length)) :: A) hgp hgq
            have hg' : lookupExv g
                (((LTLf.ev g, LTLf.patom (vname (A ++ [(p, v)]).length)) :: A) ++
                  [(p, v)]) = some f1 := hg
            obtain ⟨A2, hA2, hq1⟩ := ihWN (.ev g)
              ((LTLf.ev g, LTLf.patom (vname (A ++ [(p, v)]).length)) :: A) df r1.1 r1.2
              h1 h2 hr1
            refine ⟨A2, hA2, ?_⟩
            simp only [← hlook, hl]
            rw [hlen]
            simp only [← List.cons_append]
            rw [← hlook2]
            simp only [hg']
            simp only [hq1, bindOk]
            try rfl
      case alw g =>
        have hxp : LTLf.alw g ≠ p := ne_of_sz_lt (by omega)
        have hxq : LTLf.alw g ≠ q := ne_of_sz_lt (by omega)
        have hlook := lookup_sides (.alw g) p q v A hxp hxq
        split at h
        · rename_i w' hl
          cases h
          refine ⟨A, rfl, ?_⟩
          simp only [← hlook, hl]
          try rfl
        · rename_i hl
          obtain ⟨r1, hr1, h⟩ := bindEqOk h
          obtain ⟨r2, hr2, h⟩ := bindEqOk h
          cases h
          obtain ⟨A2, hA2, hq1⟩ := ihL g
            ((LTLf.alw g, LTLf.patom (vname (A ++ [(p, v)]).length)) :: A) df r1.1 r1.2
            (by simp only [sz] at h1; omega) (by simp only [sz] at h2; omega) hr1
          have hr2' : lkOr m (.wnext (.alw g)) ⟨A2 ++ [(p, v)], r1.2.df⟩ =
              .ok (r2.1, r2.2) := by
            rw [← hA2]
            exact hr2
          obtain ⟨A3, hA3, hq2⟩ := ihWW (.alw g) A2 r1.2.df r2.1 r2.2 h1 h2 hr2'
          refine ⟨A3, hA3, ?_⟩
          simp only [← hlook, hl]
          rw [hlen]
          simp only [← List.cons_append]
          simp only [hq1, hq2, bindOk]
          try rfl
  · intro xs A df ws t h1 h2 h
    cases n with
    | zero => exact Except.noConfusion h
    | succ m =>
      obtain ⟨ihT, ihS, ihL, ihWN, ihWW⟩ := ih m (by omega) p q v
      cases xs with
      | nil =>
        simp only [tlpSeq] at h ⊢
        cases h
        exact ⟨A, rfl, rfl⟩
      | cons a tl =>
        simp only [tlpSeq] at h ⊢
        obtain ⟨r1, hr1, h⟩ := bindEqOk h
        obtain ⟨r2, hr2, h⟩ := bindEqOk h
        cases h
        obtain ⟨A2, hA2, hq1⟩ := ihL a A df r1.1 r1.2
          (by have := szPos a; simp only [szL] at h1; omega)
          (by have := szPos a; simp only [szL] at h2; omega) hr1
        have hr2' : tlpSeq m tl ⟨A2 ++ [(p, v)], r1.2.df⟩ = .ok (r2.1, r2.2) := by
          rw [← hA2]
          exact hr2
        obtain ⟨A3, hA3, hq2⟩ := ihS tl A2 r1.2.df r2.1 r2.2
          (by have := szPos a; simp only [szL] at h1; omega)
          (by have := szPos a; simp only [szL] at h2; omega) hr2'
        refine ⟨A3, hA3, ?_⟩
        simp only [hq1, hq2, bindOk]
        try rfl
  · intro x A df w t h1 h2 h
    cases n with
    | zero => exact Except.noConfusion h
    | succ m =>
      obtain ⟨ihT, ihS, ihL, ihWN, ihWW⟩ := ih m (by omega) p q v
      have hxp : x ≠ p := ne_of_sz_lt (by omega)
      have hxq : x ≠ q := ne_of_sz_lt (by omega)
      have hlook := lookup_sides x p q v A hxp hxq
      simp only [lkOr] at h ⊢
      split at h
      · rename_i w' hl
        cases h
        refine ⟨A, rfl, ?_⟩
        simp only [← hlook, hl]
        try rfl
      · rename_i hl
        obtain ⟨A2, hA2, hq1⟩ := ihT x A df w t h1 h2 h
        refine ⟨A2, hA2, ?_⟩
        simp only [← hlook, hl]
        exact hq1
  · intro x A df w t h1 h2 h
    cases n with
    | zero => exact Except.noConfusion h
    | succ m =>
      have hxp : LTLf.lnext x ≠ p := ne_of_sz_lt (by simp only [sz]; omega)
      have hxq : LTLf.lnext x ≠ q := ne_of_sz_lt (by simp only [sz]; omega)
      have hlook := lookup_sides (.lnext x) p q v A hxp hxq
      have hlen : (A ++ [(q, v)]).length = (A ++ [(p, v)]).length := by simp
      simp only [lkOr] at h ⊢
      split at h
      · rename_i w' hl
        cases h
        refine ⟨A, rfl, ?_⟩
        simp only [← hlook, hl]
        try rfl
      · rename_i hl
        cases m with
        | zero => exact Except.noConfusion h
        | succ m2 =>
          obtain ⟨ihT, ihS, ihL, ihWN, ihWW⟩ := ih m2 (by omega) p q v
          simp only [tlp, newVar2] at h ⊢
          simp only [hl] at h
          obtain ⟨r1, hr1, h⟩ := bindEqOk h
          cases h
          obtain ⟨A2, hA2, hq1⟩ := ihL x
            ((LTLf.lnext x, LTLf.patom (vname (A ++ [(p, v)]).length)) :: A) df r1.1 r1.2
            h1 h2 hr1
          refine ⟨A2, hA2, ?_⟩
          simp only [← hlook, hl]
          rw [hlen]
          simp only [← List.cons_append]
          simp only [hq1, bindOk]
          try rfl
  · intro x A df w t h1 h2 h
    cases n with
    | zero => exact Except.noConfusion h
    | succ m =>
      have hxp : LTLf.wnext x ≠ p := ne_of_sz_lt (by simp only [sz]; omega)
      have hxq : LTLf.wnext x ≠ q := ne_of_sz_lt (by simp only [sz]; omega)
      have hlook := lookup_sides (.wnext x) p q v A hxp hxq
      have hlen : (A ++ [(q, v)]).length = (A ++ [(p, v)]).length := by simp
      simp only [lkOr] at h ⊢
      split at h
      · rename_i w' hl
        cases h
        refine ⟨A, rfl, ?_⟩
        simp only [← hlook, hl]
        try rfl
      · rename_i hl
        cases m with
        | zero => exact Except.noConfusion h
        | succ m2 =>
          obtain ⟨ihT, ihS, ihL, ihWN, ihWW⟩ := ih m2 (by omega) p q v
          simp only [tlp, newVar2] at h ⊢
          simp only [hl] at h
          obtain ⟨r1, hr1, h⟩ := bindEqOk h
          cases h
          obtain ⟨A2, hA2, hq1⟩ := ihL x
            ((LTLf.wnext x, LTLf.patom (vname (A ++ [(p, v)]).length)) :: A) df r1.1 r1.2
            h1 h2 hr1
          refine ⟨A2, hA2, ?_⟩
          simp only [← hlook, hl]
          rw [hlen]
          simp only [← List.cons_append]
          simp only [hq1, bindOk]
          try rfl

/-- An element sandwiched inside a duplicate-free list does not occur
before its position. -/
theorem nodup_middle_not_mem {α : Type} {a : α} {l₁ l₂ : List α}
    (h : (l₁ ++ a :: l₂).Nodup) : a ∉ l₁ := by
  intro hm
  have hd := (List.nodup_append.mp h).2.2
  exact hd hm (List.mem_cons_self a l₂)

/-- A proper operator that `_to_tlp` processes from scratch is memoized, in
the resulting dict, to exactly the variable it returns. -/
theorem tlp_memoizes {n : Nat} {g w : LTLf} {s T : TlpSt}
    (hp : isProper g = true)
    (hl : lookupExv g s.exv = none)
    (hnd : (s.exv.map Prod.fst).Nodup)
    (h : tlp n g s = .ok (w, T)) :
    lookupExv g T.exv = some w := by
  obtain ⟨hsti, hmemo⟩ := (tlpInv n).1 g s w T h
  obtain ⟨new, hnew⟩ := hmemo hp hl
  have hndT : (T.exv.map Prod.fst).Nodup := hsti.2.1 hnd
  rw [hnew] at hndT ⊢
  rw [List.map_append, List.map_cons] at hndT
  exact lookup_skip g w new s.exv (nodup_middle_not_mem hndT)

/-- Once a formula is memoized, `assigned_variable` resolves it to the
memoized variable with no state change, at any fuel. -/
theorem lkOr_stable_of_lookup {g w : LTLf} {T : TlpSt}
    (hl : lookupExv g T.exv = some w) :
    ∀ m r, lkOr m g T = .ok r → r = (w, T) := by
  intro m r hr
  cases m with
  | zero => exact Except.noConfusion hr
  | succ m1 =>
    simp only [lkOr, hl] at hr
    cases hr
    rfl

/-- Re-encountering an already-processed formula is a no-op: after one
successful `assigned_variable`-or-`_to_tlp` step on `g`, every further such
step on `g` returns the same variable and leaves the state unchanged
(proper operators hit the memo; atoms, constants and the past operators are
stateless). -/
theorem lkOr_stable {m₀ : Nat} {g w : LTLf} {s T : TlpSt}
    (h : lkOr m₀ g s = .ok (w, T))
    (hnd : (s.exv.map Prod.fst).Nodup) :
    ∀ m r, lkOr m g T = .ok r → r = (w, T) := by
  cases m₀ with
  | zero => exact Except.noConfusion h
  | succ u =>
    simp only [lkOr] at h
    split at h
    · rename_i w' hl
      cases h
      exact lkOr_stable_of_lookup hl
    · rename_i hl
      cases u with
      | zero => exact Except.noConfusion h
      | succ u2 =>
        by_cases hp : isProper g = true
        · exact lkOr_stable_of_lookup (tlp_memoizes hp hl hnd h)
        · cases g
          all_goals first
          | exact absurd rfl hp
          | (simp only [tlp] at h
             cases h
             intro m r hr
             cases m with
             | zero => exact Except.noConfusion hr
             | succ m1 =>
               simp only [lkOr, hl] at hr
               cases m1 with
               | zero => exact Except.noConfusion hr
               | succ m2 =>
                 simp only [tlp] at hr
                 cases hr
                 rfl)
          | (simp only [tlp] at h; exact Except.noConfusion h)

/-- The `for i in self.formulas` loop over identical children: after the
first child is processed, every further identical child resolves without
touching the state, so the loop returns the replicated child variable and
the state of the first iteration. -/
theorem tlpSeq_replicate {g w : LTLf} {T : TlpSt}
    (hst : ∀ m r, lkOr m g T = .ok r → r = (w, T)) :
    ∀ j m ls S, tlpSeq m (replicateL j g) T = .ok (ls, S) →
      ls = replicateL j w ∧ S = T := by
  intro j
  induction j with
  | zero =>
    intro m ls S h
    cases m with
    | zero => exact Except.noConfusion h
    | succ u =>
      simp only [replicateL, tlpSeq] at h
      cases h
      exact ⟨rfl, rfl⟩
  | succ i ihj =>
    intro m ls S h
    cases m with
    | zero => exact Except.noConfusion h
    | succ u =>
      simp only [replicateL, tlpSeq] at h
      obtain ⟨r1, hr1, h⟩ := bindEqOk h
      obtain ⟨r2, hr2, h⟩ := bindEqOk h
      cases h
      have he1 : r1 = (w, T) := hst u r1 hr1
      rw [he1] at hr2
      obtain ⟨hl2, hs2⟩ := ihj u r2.1 r2.2 hr2
      have h11 : r1.1 = w := by rw [he1]
      refine ⟨?_, hs2⟩
      simp only [replicateL, h11, hl2]

/-- Decomposition of a successful `gen_tlp` run on a conjunction of `k`
identical children: the root allocates `v0`, exactly one child run happens,
the remaining `k - 1` children are memo hits, and the result set is the
root variable plus the root's defining constraint plus the single child
run's constraints. -/
theorem genTlp_replicate_decomp {g : LTLf} {k n : Nat} {d : Finset LTLf}
    (hk : 2 ≤ k) (h : genTlp n (.land (replicateL k g)) = .ok d) :
    ∃ m w T, lkOr m g
        ⟨[(.land (replicateL k g), .patom (vname 0))], (∅ : Finset LTLf)⟩ =
        .ok (w, T) ∧
      d = insert (.patom (vname 0))
        (insert (.alw (.liff (two (.patom (vname 0)) (.land (replicateL k w)))))
          T.df) := by
  cases n with
  | zero => simp only [genTlp, tlp, bindErr] at h; exact Except.noConfusion h
  | succ n1 =>
    simp only [genTlp] at h
    obtain ⟨r0, hr0, h⟩ := bindEqOk h
    cases h
    simp only [tlp, newVar2, lookupExv] at hr0
    obtain ⟨r, hr, hr0⟩ := bindEqOk hr0
    split at hr0
    · rename_i hcond
      cases hr0
      obtain ⟨k2, rfl⟩ : ∃ k2, k = k2 + 2 := ⟨k - 2, by omega⟩
      cases n1 with
      | zero => exact Except.noConfusion hr
      | succ n2 =>
        simp only [replicateL, tlpSeq] at hr
        obtain ⟨r1, hr1, hr⟩ := bindEqOk hr
        obtain ⟨r2, hr2, hr⟩ := bindEqOk hr
        cases hr
        have hst := lkOr_stable hr1 (by simp)
        obtain ⟨hls, hS⟩ := tlpSeq_replicate hst (k2 + 1) n2 r2.1 r2.2 hr2
        refine ⟨n2, r1.1, r1.2, hr1, ?_⟩
        rw [hls, hS]
        rfl
    · exact Except.noConfusion hr0

/-- C3: sharing bound of the clausifier.  Encoding a conjunction whose `k`
children are all the same subformula `g` — the same subformula referenced
at `k` distinct parent sites — yields a constraint set whose cardinality
does not depend on `k`: any two successful `gen_tlp` runs, for any child
multiplicities (at least the asserted arity 2) and any sufficient fuels,
produce constraint sets of equal size, because every child after the first
is resolved by the memo map keyed on structural equality and contributes
nothing new. -/
theorem c3_sharing_bound (g : LTLf) (k₁ k₂ n₁ n₂ : Nat) (d₁ d₂ : Finset LTLf)
    (hk₁ : 2 ≤ k₁) (hk₂ : 2 ≤ k₂)
    (h₁ : genTlp n₁ (.land (replicateL k₁ g)) = .ok d₁)
    (h₂ : genTlp n₂ (.land (replicateL k₂ g)) = .ok d₂) :
    d₁.card = d₂.card := by
  obtain ⟨m₁, w₁, T₁, hL₁, hd₁⟩ := genTlp_replicate_decomp hk₁ h₁
  obtain ⟨m₂, w₂, T₂, hL₂, hd₂⟩ := genTlp_replicate_decomp hk₂ h₂
  have hL₁' := lkOr_le hL₁ (Nat.le_max_left m₁ m₂)
  have hL₂' := lkOr_le hL₂ (Nat.le_max_right m₁ m₂)
  have hsz₁ : sz g + 1 < sz (LTLf.land (replicateL k₁ g)) := by
    have hpos := szPos g
    have hmul : 2 * sz g ≤ k₁ * sz g := Nat.mul_le_mul_right _ hk₁
    simp only [sz, szL_replicate]
    omega
  have hsz₂ : sz g + 1 < sz (LTLf.land (replicateL k₂ g)) := by
    have hpos := szPos g
    have hmul : 2 * sz g ≤ k₂ * sz g := Nat.mul_le_mul_right _ hk₂
    simp only [sz, szL_replicate]
    omega
  obtain ⟨A2, hA2, hq⟩ := ((tlpSim (max m₁ m₂) (LTLf.land (replicateL k₁ g))
    (LTLf.land (replicateL k₂ g)) (.patom (vname 0))).2.2.1) g [] ∅ w₁ T₁
    hsz₁ hsz₂ hL₁'
  have heq := Except.ok.inj (hq.symm.trans hL₂')
  have hw : w₂ = w₁ := (congrArg Prod.fst heq).symm
  have hdf : T₂.df = T₁.df := (congrArg (fun r => r.2.df) heq).symm
  have hshape : ∀ c ∈ T₁.df, dfShape 1 c := by
    intro c hc
    have hinv := (tlpInv m₁).2.2 g
      ⟨[(.land (replicateL k₁ g), .patom (vname 0))], (∅ : Finset LTLf)⟩ w₁ T₁ hL₁
    cases hinv.2.2 c hc with
    | inl hmem => exact absurd hmem (Finset.not_mem_empty c)
    | inr hsh => exact hsh
  rw [hd₁, hd₂, hdf, hw]
  have hcard : ∀ k : Nat, (insert (LTLf.patom (vname 0))
      (insert (.alw (.liff (two (.patom (vname 0)) (.land (replicateL k w₁)))))
        T₁.df)).card = T₁.df.card + 2 := by
    intro k
    have hC : (LTLf.alw (.liff (two (.patom (vname 0))
        (.land (replicateL k w₁))))) ∉ T₁.df := by
      intro hc
      obtain ⟨i, hi, hsh⟩ := hshape _ hc
      rcases hsh with ⟨x, hx⟩ | hx | hx
      · simp only [two, LTLf.alw.injEq, LTLf.liff.injEq, LTLfList.cons.injEq,
          LTLf.patom.injEq] at hx
        have := vname_inj hx.1
        omega
      · exact LTLf.noConfusion (LTLf.alw.inj hx)
      · exact LTLf.noConfusion (LTLf.alw.inj hx)
    have hv : (LTLf.patom (vname 0)) ∉ insert
        (LTLf.alw (.liff (two (.patom (vname 0)) (.land (replicateL k w₁)))))
        T₁.df := by
      intro hc
      rcases Finset.mem_insert.mp hc with he | hm
      · exact LTLf.noConfusion he
      · obtain ⟨i, hi, hsh⟩ := hshape _ hm
        rcases hsh with ⟨x, hx⟩ | hx | hx <;> exact LTLf.noConfusion hx
    rw [Finset.card_insert_of_not_mem hv, Finset.card_insert_of_not_mem hC]
  rw [hcard k₁, hcard k₂]

/-- Witness for C3: conjoining two versus three copies of `X(a)` yields
constraint sets of the same cardinality. -/
theorem c3_witness :
    (2 : Nat) ≤ 2 ∧ (2 : Nat) ≤ 3 ∧
    ∃ d₁ d₂ : Finset LTLf,
      genTlp 6 (.land (replicateL 2 (.lnext (.atom "a")))) = .ok d₁ ∧
      genTlp 7 (.land (replicateL 3 (.lnext (.atom "a")))) = .ok d₂ ∧
      d₁.card = d₂.card :=
  ⟨by decide, by decide, _, _, rfl, rfl,
    c3_sharing_bound (.lnext (.atom "a")) 2 3 6 7 _ _ (by decide) (by decide) rfl rfl⟩
